import Mathlib

/-!
Verification development for the lightweight PostgreSQL client extension.

The TypeScript sources are shallowly embedded: every pure text-manipulation
function is translated to a Lean function over `List Char` (JS strings are
sequences of UTF-16 code units; all inputs relevant here are ASCII, and the
embedding models the ASCII behaviour of `trim`, `\s`, `\d`, `\w` and
`toUpperCase`).  Stateful services are embedded as explicit state-passing
functions, with the database driver and the JS runtime built-ins
(`JSON.parse`, `JSON.stringify`, `Number`) supplied as explicit functional
parameters of the environment.
-/

namespace PgClient

/-- ASCII model of the JS whitespace class `\s` (and of `String.prototype.trim`). -/
def isJsSpace (c : Char) : Bool :=
  c == ' ' || c == '\t' || c == '\n' || c == '\r' || c == '\x0b' || c == '\x0c'

/-- JS regex word-character class `\w`, i.e. `[A-Za-z0-9_]`. -/
def isWordChar (c : Char) : Bool :=
  c.isAlpha || c.isDigit || c == '_'

/-- JS `String.prototype.trim` on a character list (ASCII whitespace). -/
def jsTrim (cs : List Char) : List Char :=
  ((cs.dropWhile isJsSpace).reverse.dropWhile isJsSpace).reverse

/-- Case-insensitive literal match: consume `pat` (given in upper case)
from the front of `cs`, returning the rest. -/
def dropCi (pat : List Char) (cs : List Char) : Option (List Char) :=
  match pat, cs with
  | [], rest => some rest
  | _ :: _, [] => none
  | p :: ps, c :: rest => if c.toUpper == p then dropCi ps rest else none

/-- Consume a non-empty run of characters satisfying `p` (regex `p+`),
returning the rest. -/
def dropPlus (p : Char → Bool) (cs : List Char) : Option (List Char) :=
  match cs with
  | [] => none
  | c :: rest => if p c then some (rest.dropWhile p) else none

/-- Tail matcher for the source regex `LIMIT\s+\d+\s*(OFFSET\s+\d+)?\s*$`
(case-insensitive), applied at a candidate match position. -/
def limitOffsetTail (cs : List Char) : Bool :=
  match dropCi "LIMIT".data cs with
  | none => false
  | some r1 =>
    match dropPlus isJsSpace r1 with
    | none => false
    | some r2 =>
      match dropPlus Char.isDigit r2 with
      | none => false
      | some r3 =>
        let r4 := r3.dropWhile isJsSpace
        if r4.isEmpty then true
        else
          match dropCi "OFFSET".data r4 with
          | none => false
          | some r5 =>
            match dropPlus isJsSpace r5 with
            | none => false
            | some r6 =>
              match dropPlus Char.isDigit r6 with
              | none => false
              | some r7 => (r7.dropWhile isJsSpace).isEmpty

/-- Tail matcher for the source regex `LIMIT\s+\d+\s*$` (case-insensitive). -/
def limitTail (cs : List Char) : Bool :=
  match dropCi "LIMIT".data cs with
  | none => false
  | some r1 =>
    match dropPlus isJsSpace r1 with
    | none => false
    | some r2 =>
      match dropPlus Char.isDigit r2 with
      | none => false
      | some r3 => (r3.dropWhile isJsSpace).isEmpty

/-- The optional `(S)?` after `ROW` in the FETCH regex: consume a leading
`S`/`s` if present. -/
def skipOptionalS (r : List Char) : List Char :=
  match r with
  | c :: rest => if c.toUpper == 'S' then rest else c :: rest
  | [] => []

/-- Tail matcher for the source regex
`FETCH\s+(FIRST|NEXT)\s+\d+\s+ROW(S)?\s+ONLY\s*$` (case-insensitive). -/
def fetchTail (cs : List Char) : Bool :=
  match dropCi "FETCH".data cs with
  | none => false
  | some r1 =>
    match dropPlus isJsSpace r1 with
    | none => false
    | some r2 =>
      match (dropCi "FIRST".data r2).orElse (fun _ => dropCi "NEXT".data r2) with
      | none => false
      | some r3 =>
        match dropPlus isJsSpace r3 with
        | none => false
        | some r4 =>
          match dropPlus Char.isDigit r4 with
          | none => false
          | some r5 =>
            match dropPlus isJsSpace r5 with
            | none => false
            | some r6 =>
              match dropCi "ROW".data r6 with
              | none => false
              | some r7 =>
                let r8 := skipOptionalS r7
                match dropPlus isJsSpace r8 with
                | none => false
                | some r9 =>
                  match dropCi "ONLY".data r9 with
                  | none => false
                  | some r10 => (r10.dropWhile isJsSpace).isEmpty

/-- A JS regex word boundary `\b` between an optional previous character and
the current character `c`: it holds when exactly one side is a word character. -/
def wordBoundary (prev : Option Char) (c : Char) : Bool :=
  match prev with
  | none => isWordChar c
  | some p => isWordChar p != isWordChar c

/-- Try the anchored tail matcher `tail` at every position of `cs` that has a
word boundary before it (the `\b` at the start of each source regex).
`prev` is the character immediately before `cs`, if any. -/
def scanMatch (tail : List Char → Bool) (prev : Option Char) (cs : List Char) : Bool :=
  match cs with
  | [] => false
  | c :: rest => (wordBoundary prev c && tail (c :: rest)) || scanMatch tail (some c) rest

/--
Embedding of `hasLimitClause` (src/unnamed/part_006, lines 382-389):

    const normalizedSql = sql.replace(/\s+/g, ' ').trim().toUpperCase();
    return /\bLIMIT\s+\d+\s*(OFFSET\s+\d+)?\s*$/i.test(sql.trim()) ||
           /\bLIMIT\s+\d+\s*$/i.test(sql.trim()) ||
           /\bFETCH\s+(FIRST|NEXT)\s+\d+\s+ROW(S)?\s+ONLY\s*$/i.test(sql.trim());

(the computed `normalizedSql` is unused by the return expression, so it is
omitted here).  All three regexes are applied to `sql.trim()`.
-/
def hasLimitClause (sql : List Char) : Bool :=
  scanMatch limitOffsetTail none (jsTrim sql) ||
  scanMatch limitTail none (jsTrim sql) ||
  scanMatch fetchTail none (jsTrim sql)

/--
Embedding of `addLimitClause` (src/unnamed/part_006, lines 394-403):

    let trimmedSql = sql.trim();
    const hadSemicolon = trimmedSql.endsWith(';');
    if (hadSemicolon) trimmedSql = trimmedSql.slice(0, -1).trim();
    return trimmedSql + ' LIMIT ' + limit + (hadSemicolon ? ';' : '');
-/
def addLimitClause (sql : List Char) (limit : Nat) : List Char :=
  let trimmed := jsTrim sql
  let hadSemicolon := trimmed.getLast? == some ';'
  let body := if hadSemicolon then jsTrim trimmed.dropLast else trimmed
  body ++ " LIMIT ".data ++ (Nat.repr limit).data ++ (if hadSemicolon then [';'] else [])

/-- Worker for `collapseSpaces`: `prevSpace` records whether the previous
character was whitespace (in which case further whitespace is dropped rather
than emitted). -/
def collapseGo (prevSpace : Bool) : List Char → List Char
  | [] => []
  | c :: rest =>
    if isJsSpace c then
      if prevSpace then collapseGo true rest else ' ' :: collapseGo true rest
    else c :: collapseGo false rest

/-- Collapse every maximal whitespace run to a single space:
JS `sql.replace(/\s+/g, ' ')`. -/
def collapseSpaces (cs : List Char) : List Char :=
  collapseGo false cs

/-- JS `sql.replace(/\s+/g, ' ').trim().toUpperCase()`, the normalization used
by `isSelectQuery` and `isModificationQuery`. -/
def normalizeSql (cs : List Char) : List Char :=
  (jsTrim (collapseSpaces cs)).map Char.toUpper

/--
Embedding of `isSelectQuery` (src/unnamed/part_006, lines 374-377):

    const normalizedSql = sql.replace(/\s+/g, ' ').trim().toUpperCase();
    return normalizedSql.startsWith('SELECT ') || normalizedSql.startsWith('WITH ');
-/
def isSelectQuery (sql : List Char) : Bool :=
  "SELECT ".data.isPrefixOf (normalizeSql sql) || "WITH ".data.isPrefixOf (normalizeSql sql)

/-- The modification keyword list of `isModificationQuery`, in source order. -/
def modificationKeywords : List (List Char) :=
  ["INSERT".data, "UPDATE".data, "DELETE".data, "TRUNCATE".data, "DROP".data,
   "ALTER".data, "CREATE".data, "GRANT".data, "REVOKE".data, "VACUUM".data,
   "REINDEX".data, "CLUSTER".data, "REFRESH MATERIALIZED VIEW".data, "COPY".data]

/--
Embedding of `isModificationQuery` (src/unnamed/part_006, lines 318-347):
normalize, then return true iff the normalized text starts with
`keyword + ' '` or equals the keyword, for one of the listed keywords.
-/
def isModificationQuery (sql : List Char) : Bool :=
  modificationKeywords.any fun kw =>
    (kw ++ [' ']).isPrefixOf (normalizeSql sql) || normalizeSql sql == kw

/-! ### Specification-side predicates for the row-limit check (claim C1)

These predicates follow the spec's words for `hasRowLimit`: the statement
ends with `LIMIT <n>`, `LIMIT <n> OFFSET <n>`, or
`FETCH FIRST|NEXT <n> ROW|ROWS ONLY`, with the keyword preceded by a word
boundary.  They are written independently of the scanning matcher above so
that the theorem comparing them to the source function has content. -/

/-- `kw` is the given (upper-case) keyword up to letter case. -/
def CiWord (pat : List Char) (kw : List Char) : Prop :=
  kw.map Char.toUpper = pat

/-- Every character of `cs` satisfies `p`. -/
def AllChars (p : Char → Bool) (cs : List Char) : Prop :=
  ∀ c ∈ cs, p c = true

instance (pat kw : List Char) : Decidable (CiWord pat kw) :=
  inferInstanceAs (Decidable (kw.map Char.toUpper = pat))

instance (p : Char → Bool) (cs : List Char) : Decidable (AllChars p cs) :=
  inferInstanceAs (Decidable (∀ c ∈ cs, p c = true))

/-- The text is exactly `LIMIT <n>`: keyword, whitespace, digits. -/
def LimitNumShape (cs : List Char) : Prop :=
  ∃ kw w d, cs = kw ++ w ++ d ∧ CiWord "LIMIT".data kw ∧
    w ≠ [] ∧ AllChars isJsSpace w ∧ d ≠ [] ∧ AllChars Char.isDigit d

/-- The text is exactly `LIMIT <n> OFFSET <n>` (the whitespace between the
first number and `OFFSET` may be empty, mirroring the `\s*` in the source
regex). -/
def LimitOffsetShape (cs : List Char) : Prop :=
  ∃ kw w d w2 kw2 w3 d2, cs = kw ++ w ++ d ++ w2 ++ kw2 ++ w3 ++ d2 ∧
    CiWord "LIMIT".data kw ∧ w ≠ [] ∧ AllChars isJsSpace w ∧
    d ≠ [] ∧ AllChars Char.isDigit d ∧
    AllChars isJsSpace w2 ∧ CiWord "OFFSET".data kw2 ∧
    w3 ≠ [] ∧ AllChars isJsSpace w3 ∧ d2 ≠ [] ∧ AllChars Char.isDigit d2

/-- The text is exactly `FETCH FIRST|NEXT <n> ROW|ROWS ONLY`. -/
def FetchShape (cs : List Char) : Prop :=
  ∃ kw w1 kw2 w2 d w3 kw3 w4 kw4,
    cs = kw ++ w1 ++ kw2 ++ w2 ++ d ++ w3 ++ kw3 ++ w4 ++ kw4 ∧
    CiWord "FETCH".data kw ∧ w1 ≠ [] ∧ AllChars isJsSpace w1 ∧
    (CiWord "FIRST".data kw2 ∨ CiWord "NEXT".data kw2) ∧
    w2 ≠ [] ∧ AllChars isJsSpace w2 ∧ d ≠ [] ∧ AllChars Char.isDigit d ∧
    w3 ≠ [] ∧ AllChars isJsSpace w3 ∧
    (CiWord "ROW".data kw3 ∨ CiWord "ROWS".data kw3) ∧
    w4 ≠ [] ∧ AllChars isJsSpace w4 ∧ CiWord "ONLY".data kw4

/-- One of the three trailing row-limit patterns. -/
def TailShape (cs : List Char) : Prop :=
  LimitNumShape cs ∨ LimitOffsetShape cs ∨ FetchShape cs

/-- The (already trimmed) text ends with a row-limit pattern preceded by a
word boundary. -/
def EndsWithRowLimit (t : List Char) : Prop :=
  ∃ pre tl, t = pre ++ tl ∧ (∀ c ∈ pre.getLast?, isWordChar c = false) ∧ TailShape tl

/-- Remove trailing whitespace only. -/
def rtrimWs (cs : List Char) : List Char :=
  (cs.reverse.dropWhile isJsSpace).reverse

/-- Claim C1's reading of `hasRowLimit`: the statement ends, modulo trailing
whitespace and an optional trailing semicolon, with a row-limit pattern. -/
def ClaimHasRowLimit (s : List Char) : Prop :=
  EndsWithRowLimit
    (if (rtrimWs s).getLast? = some ';' then rtrimWs (rtrimWs s).dropLast else rtrimWs s)

/-! ### Lemmas connecting the matchers to the shape predicates -/

theorem dropCi_eq_some_iff (pat : List Char) :
    ∀ cs r, dropCi pat cs = some r ↔ ∃ kw, cs = kw ++ r ∧ kw.map Char.toUpper = pat := by
  induction pat with
  | nil =>
    intro cs r
    simp only [dropCi, Option.some.injEq]
    constructor
    · rintro rfl; exact ⟨[], rfl, rfl⟩
    · rintro ⟨kw, rfl, hkw⟩
      have : kw = [] := by simpa using congrArg List.length hkw
      simp [this]
  | cons p ps ih =>
    intro cs r
    cases cs with
    | nil =>
      simp only [dropCi]
      constructor
      · rintro ⟨⟩
      · rintro ⟨kw, hcs, hkw⟩
        cases kw with
        | nil => simp at hkw
        | cons a as => simp at hcs
    | cons c rest =>
      simp only [dropCi]
      by_cases h : c.toUpper = p
      · simp only [h, beq_self_eq_true, if_true, ih rest r]
        constructor
        · rintro ⟨kw, rfl, hkw⟩
          exact ⟨c :: kw, rfl, by simp [hkw, h]⟩
        · rintro ⟨kw, hcs, hkw⟩
          cases kw with
          | nil => simp at hkw
          | cons a as =>
            simp only [List.cons_append, List.cons.injEq] at hcs
            obtain ⟨rfl, hrest⟩ := hcs
            simp only [List.map_cons, List.cons.injEq] at hkw
            exact ⟨as, hrest, hkw.2⟩
      · have : (c.toUpper == p) = false := by simpa using h
        simp only [this, if_false]
        constructor
        · rintro ⟨⟩
        · rintro ⟨kw, hcs, hkw⟩
          cases kw with
          | nil => simp at hkw
          | cons a as =>
            simp only [List.cons_append, List.cons.injEq] at hcs
            simp only [List.map_cons, List.cons.injEq] at hkw
            exact absurd (hcs.1 ▸ hkw.1) h

theorem dropWhile_all_append {p : Char → Bool} {w r : List Char}
    (hw : AllChars p w) (hr : ∀ c ∈ r.head?, p c = false) :
    (w ++ r).dropWhile p = r := by
  induction w with
  | nil =>
    cases r with
    | nil => rfl
    | cons c rest =>
      have := hr c (by simp)
      simp [List.dropWhile, this]
  | cons a as ih =>
    have ha := hw a (by simp)
    simp only [List.cons_append, List.dropWhile, ha]
    exact ih (fun c hc => hw c (by simp [hc]))

theorem dropPlus_append {p : Char → Bool} {w r : List Char}
    (hw : AllChars p w) (hne : w ≠ []) (hr : ∀ c ∈ r.head?, p c = false) :
    dropPlus p (w ++ r) = some r := by
  cases w with
  | nil => exact absurd rfl hne
  | cons a as =>
    have ha := hw a (by simp)
    simp only [List.cons_append, dropPlus, ha, if_true]
    rw [dropWhile_all_append (fun c hc => hw c (by simp [hc])) hr]

theorem dropPlus_eq_some {p : Char → Bool} {cs r : List Char}
    (h : dropPlus p cs = some r) :
    ∃ w, cs = w ++ r ∧ w ≠ [] ∧ AllChars p w := by
  cases cs with
  | nil => exact absurd h (by simp [dropPlus])
  | cons c rest =>
    simp only [dropPlus] at h
    by_cases hc : p c = true
    · simp only [hc, if_true, Option.some.injEq] at h
      refine ⟨c :: rest.takeWhile p, ?_, by simp, ?_⟩
      · rw [← h]; simp [List.takeWhile_append_dropWhile]
      · intro x hx
        rcases List.mem_cons.mp hx with rfl | hx
        · exact hc
        · exact List.mem_takeWhile_imp hx
    · simp [hc] at h

theorem dropWhile_isEmpty_iff (p : Char → Bool) (cs : List Char) :
    (cs.dropWhile p).isEmpty = true ↔ AllChars p cs := by
  rw [List.isEmpty_iff, List.dropWhile_eq_nil_iff]
  rfl

/-! ### Character-class facts used to separate adjacent pattern components -/

theorem char_toUpper_cases (c : Char) :
    c.toUpper = c ∨ (97 ≤ c.toNat ∧ c.toNat ≤ 122 ∧ c.toUpper.toNat + 32 = c.toNat) := by
  unfold Char.toUpper
  by_cases h : 97 ≤ c.toNat ∧ c.toNat ≤ 122
  · right
    refine ⟨h.1, h.2, ?_⟩
    simp only [h, and_self, if_true]
    have hval : (c.toNat - 32) < 0xd800 := by omega
    rw [Char.ofNat, dif_pos (Or.inl hval)]
    show (UInt32.ofNat' (c.toNat - 32) _).toNat + 32 = c.toNat
    simp only [UInt32.ofNat', UInt32.toNat, BitVec.ofNatLt, BitVec.toNat]
    omega
  · left; simp [h]

theorem toNat_le_of_isJsSpace {c : Char} (h : isJsSpace c = true) : c.toNat ≤ 32 := by
  simp only [isJsSpace, Bool.or_eq_true, beq_iff_eq] at h
  rcases h with ((((rfl | rfl) | rfl) | rfl) | rfl) | rfl <;> decide

theorem isDigit_iff_toNat {c : Char} : c.isDigit = true ↔ 48 ≤ c.toNat ∧ c.toNat ≤ 57 := by
  simp only [Char.isDigit, Bool.and_eq_true, decide_eq_true_eq]
  exact Iff.rfl

theorem isWordChar_of_toNat_letter {c : Char}
    (h : (65 ≤ c.toNat ∧ c.toNat ≤ 90) ∨ (97 ≤ c.toNat ∧ c.toNat ≤ 122)) :
    isWordChar c = true := by
  have halpha : c.isAlpha = true := by
    simp only [Char.isAlpha, Char.isUpper, Char.isLower, Bool.or_eq_true, Bool.and_eq_true,
      decide_eq_true_eq]
    rcases h with h | h
    · exact Or.inl ⟨h.1, h.2⟩
    · exact Or.inr ⟨h.1, h.2⟩
  simp [isWordChar, halpha]

/-- The facts needed about a character whose upper-case image is a concrete
upper-case letter `K`: it is a word character, not whitespace, not a digit. -/
theorem toUpper_letter_facts {c K : Char} (hK : c.toUpper = K)
    (h1 : 65 ≤ K.toNat) (h2 : K.toNat ≤ 90) :
    isWordChar c = true ∧ isJsSpace c = false ∧ c.isDigit = false := by
  rcases char_toUpper_cases c with hc | ⟨ha, hb, hn⟩
  · rw [hc] at hK
    subst hK
    refine ⟨isWordChar_of_toNat_letter (Or.inl ⟨h1, h2⟩), ?_, ?_⟩
    · cases hsp : isJsSpace c
      · rfl
      · exfalso; have := toNat_le_of_isJsSpace hsp; omega
    · cases hd : c.isDigit
      · rfl
      · exfalso; have := isDigit_iff_toNat.mp hd; omega
  · refine ⟨isWordChar_of_toNat_letter (Or.inr ⟨ha, hb⟩), ?_, ?_⟩
    · cases hsp : isJsSpace c
      · rfl
      · exfalso; have := toNat_le_of_isJsSpace hsp; omega
    · cases hd : c.isDigit
      · rfl
      · exfalso; have := isDigit_iff_toNat.mp hd; omega

theorem isJsSpace_of_digit_false {c : Char} (h : c.isDigit = true) : isJsSpace c = false := by
  cases hsp : isJsSpace c
  · rfl
  · exfalso
    have := toNat_le_of_isJsSpace hsp
    have := isDigit_iff_toNat.mp h
    omega

theorem isDigit_of_space_false {c : Char} (h : isJsSpace c = true) : c.isDigit = false := by
  cases hd : c.isDigit
  · rfl
  · exfalso
    have := isDigit_iff_toNat.mp hd
    have := toNat_le_of_isJsSpace h
    omega

theorem isWordChar_of_digit {c : Char} (h : c.isDigit = true) : isWordChar c = true := by
  simp [isWordChar, h]

/-- First character of a case-insensitive keyword match. -/
theorem ciword_head {p : Char} {ps kw : List Char} (h : CiWord (p :: ps) kw) :
    ∃ c cs, kw = c :: cs ∧ c.toUpper = p ∧ CiWord ps cs := by
  cases kw with
  | nil => simp [CiWord] at h
  | cons c cs =>
    simp only [CiWord, List.map_cons, List.cons.injEq] at h
    exact ⟨c, cs, rfl, h.1, h.2⟩

theorem dropCi_append {pat kw r : List Char} (h : kw.map Char.toUpper = pat) :
    dropCi pat (kw ++ r) = some r :=
  (dropCi_eq_some_iff pat (kw ++ r) r).mpr ⟨kw, rfl, h⟩

theorem head_all_imp {p q : Char → Bool} {d : List Char} (x : List Char) (hd : d ≠ [])
    (hall : AllChars p d) (himp : ∀ c, p c = true → q c = false) :
    ∀ c ∈ (d ++ x).head?, q c = false := by
  cases d with
  | nil => exact absurd rfl hd
  | cons a as =>
    intro c hc
    simp only [List.cons_append, List.head?_cons, Option.mem_def, Option.some.injEq] at hc
    subst hc
    exact himp a (hall a (by simp))

theorem head_of_all {p q : Char → Bool} {sp : List Char} (hall : AllChars p sp)
    (himp : ∀ c, p c = true → q c = false) :
    ∀ c ∈ sp.head?, q c = false := by
  cases sp with
  | nil => simp
  | cons a as =>
    intro c hc
    simp only [List.head?_cons, Option.mem_def, Option.some.injEq] at hc
    subst hc
    exact himp a (hall a (by simp))

theorem allChars_append {p : Char → Bool} {a b : List Char}
    (ha : AllChars p a) (hb : AllChars p b) : AllChars p (a ++ b) := by
  intro c hc
  rcases List.mem_append.mp hc with h | h
  · exact ha c h
  · exact hb c h

theorem allChars_takeWhile (p : Char → Bool) (l : List Char) :
    AllChars p (l.takeWhile p) := fun _ hc => List.mem_takeWhile_imp hc

/-- The space/digit head-separation facts, packaged for reuse. -/
theorem space_digit_sep : ∀ c : Char, isJsSpace c = true → c.isDigit = false :=
  fun _ h => isDigit_of_space_false h

theorem digit_space_sep : ∀ c : Char, c.isDigit = true → isJsSpace c = false :=
  fun _ h => isJsSpace_of_digit_false h

/-- `limitTail` recognizes exactly `LIMIT <n>` followed by trailing whitespace. -/
theorem limitTail_iff (cs : List Char) :
    limitTail cs = true ↔
      ∃ core sp, cs = core ++ sp ∧ AllChars isJsSpace sp ∧ LimitNumShape core := by
  constructor
  · intro h
    unfold limitTail at h
    cases h1 : dropCi "LIMIT".data cs with
    | none => simp [h1] at h
    | some r1 =>
      simp only [h1] at h
      cases h2 : dropPlus isJsSpace r1 with
      | none => simp [h2] at h
      | some r2 =>
        simp only [h2] at h
        cases h3 : dropPlus Char.isDigit r2 with
        | none => simp [h3] at h
        | some r3 =>
          simp only [h3] at h
          obtain ⟨kw, rfl, hkw⟩ := (dropCi_eq_some_iff _ _ _).mp h1
          obtain ⟨w, rfl, hw, hwall⟩ := dropPlus_eq_some h2
          obtain ⟨d, rfl, hd, hdall⟩ := dropPlus_eq_some h3
          refine ⟨kw ++ (w ++ d), r3, by simp, (dropWhile_isEmpty_iff _ _).mp h, ?_⟩
          exact ⟨kw, w, d, by simp, hkw, hw, hwall, hd, hdall⟩
  · rintro ⟨core, sp, rfl, hsp, kw, w, d, rfl, hkw, hw, hwall, hd, hdall⟩
    unfold limitTail
    rw [show kw ++ w ++ d ++ sp = kw ++ (w ++ (d ++ sp)) by simp]
    simp only [dropCi_append hkw,
      dropPlus_append hwall hw (head_all_imp sp hd hdall digit_space_sep),
      dropPlus_append hdall hd (head_of_all hsp space_digit_sep)]
    exact (dropWhile_isEmpty_iff _ _).mpr hsp

/-- `limitOffsetTail` recognizes exactly `LIMIT <n>` or `LIMIT <n> OFFSET <n>`
followed by trailing whitespace. -/
theorem limitOffsetTail_iff (cs : List Char) :
    limitOffsetTail cs = true ↔
      ∃ core sp, cs = core ++ sp ∧ AllChars isJsSpace sp ∧
        (LimitNumShape core ∨ LimitOffsetShape core) := by
  constructor
  · intro h
    unfold limitOffsetTail at h
    cases h1 : dropCi "LIMIT".data cs with
    | none => simp [h1] at h
    | some r1 =>
      simp only [h1] at h
      cases h2 : dropPlus isJsSpace r1 with
      | none => simp [h2] at h
      | some r2 =>
        simp only [h2] at h
        cases h3 : dropPlus Char.isDigit r2 with
        | none => simp [h3] at h
        | some r3 =>
          simp only [h3] at h
          obtain ⟨kw, rfl, hkw⟩ := (dropCi_eq_some_iff _ _ _).mp h1
          obtain ⟨w, rfl, hw, hwall⟩ := dropPlus_eq_some h2
          obtain ⟨d, rfl, hd, hdall⟩ := dropPlus_eq_some h3
          cases hr4 : (r3.dropWhile isJsSpace).isEmpty with
          | true =>
            refine ⟨kw ++ (w ++ d), r3, by simp, (dropWhile_isEmpty_iff _ _).mp hr4, Or.inl ?_⟩
            exact ⟨kw, w, d, by simp, hkw, hw, hwall, hd, hdall⟩
          | false =>
            simp only [hr4, if_false, Bool.false_eq_true] at h
            cases h4 : dropCi "OFFSET".data (r3.dropWhile isJsSpace) with
            | none => simp [h4] at h
            | some r5 =>
              simp only [h4] at h
              cases h5 : dropPlus isJsSpace r5 with
              | none => simp [h5] at h
              | some r6 =>
                simp only [h5] at h
                cases h6 : dropPlus Char.isDigit r6 with
                | none => simp [h6] at h
                | some r7 =>
                  simp only [h6] at h
                  obtain ⟨kw2, hr4eq, hkw2⟩ := (dropCi_eq_some_iff _ _ _).mp h4
                  obtain ⟨w3, rfl, hw3, hw3all⟩ := dropPlus_eq_some h5
                  obtain ⟨d2, rfl, hd2, hd2all⟩ := dropPlus_eq_some h6
                  have hr3 : r3 = r3.takeWhile isJsSpace ++ (kw2 ++ (w3 ++ (d2 ++ r7))) := by
                    conv_lhs => rw [← List.takeWhile_append_dropWhile (p := isJsSpace) (l := r3)]
                    rw [hr4eq]
                  refine ⟨kw ++ (w ++ (d ++ (r3.takeWhile isJsSpace ++ (kw2 ++ (w3 ++ d2))))),
                    r7, ?_, (dropWhile_isEmpty_iff _ _).mp h, Or.inr ?_⟩
                  · conv_lhs => rw [hr3]
                    simp
                  · exact ⟨kw, w, d, r3.takeWhile isJsSpace, kw2, w3, d2, by simp,
                      hkw, hw, hwall, hd, hdall, allChars_takeWhile _ _, hkw2, hw3, hw3all,
                      hd2, hd2all⟩
  · rintro ⟨core, sp, rfl, hsp, hshape⟩
    unfold limitOffsetTail
    rcases hshape with ⟨kw, w, d, rfl, hkw, hw, hwall, hd, hdall⟩ |
      ⟨kw, w, d, w2, kw2, w3, d2, rfl, hkw, hw, hwall, hd, hdall, hw2all, hkw2, hw3, hw3all,
        hd2, hd2all⟩
    · rw [show kw ++ w ++ d ++ sp = kw ++ (w ++ (d ++ sp)) by simp]
      simp only [dropCi_append hkw,
        dropPlus_append hwall hw (head_all_imp sp hd hdall digit_space_sep),
        dropPlus_append hdall hd (head_of_all hsp space_digit_sep),
        (dropWhile_isEmpty_iff _ _).mpr hsp, if_true]
    · obtain ⟨c2, cs2, rfl, hc2u, _⟩ := ciword_head hkw2
      obtain ⟨hc2w, hc2sp, hc2d⟩ := toUpper_letter_facts hc2u (by decide) (by decide)
      have hckw2 : ∀ x ∈ ((c2 :: cs2) ++ (w3 ++ (d2 ++ sp))).head?, x.isDigit = false := by
        intro x hx
        simp only [List.cons_append, List.head?_cons, Option.mem_def, Option.some.injEq] at hx
        subst hx; exact hc2d
      have hw2head : ∀ x ∈ ((c2 :: cs2) ++ (w3 ++ (d2 ++ sp))).head?, isJsSpace x = false := by
        intro x hx
        simp only [List.cons_append, List.head?_cons, Option.mem_def, Option.some.injEq] at hx
        subst hx; exact hc2sp
      have hsepD : ∀ x ∈ (w2 ++ ((c2 :: cs2) ++ (w3 ++ (d2 ++ sp)))).head?, x.isDigit = false := by
        cases w2 with
        | nil => simpa using hckw2
        | cons a as =>
          intro x hx
          simp only [List.cons_append, List.head?_cons, Option.mem_def, Option.some.injEq] at hx
          subst hx
          exact isDigit_of_space_false (hw2all a (by simp))
      have hne : ((c2 :: cs2) ++ (w3 ++ (d2 ++ sp))).isEmpty = false := rfl
      rw [show kw ++ w ++ d ++ w2 ++ (c2 :: cs2) ++ w3 ++ d2 ++ sp
            = kw ++ (w ++ (d ++ (w2 ++ ((c2 :: cs2) ++ (w3 ++ (d2 ++ sp)))))) by simp]
      simp only [dropCi_append hkw,
        dropPlus_append hwall hw (head_all_imp _ hd hdall digit_space_sep),
        dropPlus_append hdall hd hsepD,
        dropWhile_all_append hw2all hw2head,
        hne, Bool.false_eq_true, if_false,
        dropCi_append hkw2,
        dropPlus_append hw3all hw3 (head_all_imp sp hd2 hd2all digit_space_sep),
        dropPlus_append hd2all hd2 (head_of_all hsp space_digit_sep)]
      exact (dropWhile_isEmpty_iff _ _).mpr hsp

theorem toUpper_of_space {c : Char} (h : isJsSpace c = true) : c.toUpper = c := by
  rcases char_toUpper_cases c with hc | ⟨ha, _, _⟩
  · exact hc
  · exact absurd ha (by have := toNat_le_of_isJsSpace h; omega)

theorem skipOptionalS_space {w : List Char} (X : List Char)
    (hall : AllChars isJsSpace w) (hne : w ≠ []) :
    skipOptionalS (w ++ X) = w ++ X := by
  cases w with
  | nil => exact absurd rfl hne
  | cons a as =>
    have ha : isJsSpace a = true := hall a (by simp)
    have hne' : (a.toUpper == 'S') = false := by
      rw [toUpper_of_space ha]
      have : a ≠ 'S' := by
        intro hEq
        rw [hEq] at ha
        exact absurd ha (by decide)
      simpa using this
    simp [skipOptionalS, hne']

theorem skipOptionalS_consS {c : Char} (X : List Char) (h : c.toUpper = 'S') :
    skipOptionalS (c :: X) = X := by
  simp [skipOptionalS, h]

/-- `fetchTail` recognizes exactly `FETCH FIRST|NEXT <n> ROW|ROWS ONLY`
followed by trailing whitespace. -/
theorem fetchTail_iff (cs : List Char) :
    fetchTail cs = true ↔
      ∃ core sp, cs = core ++ sp ∧ AllChars isJsSpace sp ∧ FetchShape core := by
  constructor
  · intro h
    unfold fetchTail at h
    cases h1 : dropCi "FETCH".data cs with
    | none => simp [h1] at h
    | some r1 =>
      simp only [h1] at h
      cases h2 : dropPlus isJsSpace r1 with
      | none => simp [h2] at h
      | some r2 =>
        simp only [h2] at h
        cases horelse : (dropCi "FIRST".data r2).orElse (fun _ => dropCi "NEXT".data r2) with
        | none => simp [horelse] at h
        | some r3 =>
          simp only [horelse] at h
          have hkw2ex : ∃ kw2, r2 = kw2 ++ r3 ∧
              (CiWord "FIRST".data kw2 ∨ CiWord "NEXT".data kw2) := by
            cases hA : dropCi "FIRST".data r2 with
            | some r3' =>
              rw [hA] at horelse
              simp only [Option.orElse, Option.some.injEq] at horelse
              subst horelse
              obtain ⟨kw2, he, hm⟩ := (dropCi_eq_some_iff _ _ _).mp hA
              exact ⟨kw2, he, Or.inl hm⟩
            | none =>
              rw [hA] at horelse
              simp only [Option.orElse] at horelse
              obtain ⟨kw2, he, hm⟩ := (dropCi_eq_some_iff _ _ _).mp horelse
              exact ⟨kw2, he, Or.inr hm⟩
          obtain ⟨kw2, hr2eq, hkw2ci⟩ := hkw2ex
          cases h3 : dropPlus isJsSpace r3 with
          | none => simp [h3] at h
          | some r4 =>
            simp only [h3] at h
            cases h4 : dropPlus Char.isDigit r4 with
            | none => simp [h4] at h
            | some r5 =>
              simp only [h4] at h
              cases h5 : dropPlus isJsSpace r5 with
              | none => simp [h5] at h
              | some r6 =>
                simp only [h5] at h
                cases h6 : dropCi "ROW".data r6 with
                | none => simp [h6] at h
                | some r7 =>
                  simp only [h6] at h
                  cases hr7 : r7 with
                  | nil => simp [hr7, skipOptionalS, dropPlus] at h
                  | cons c rest =>
                    simp only [hr7] at h
                    subst hr7
                    obtain ⟨kwF, rfl, hkwF⟩ := (dropCi_eq_some_iff _ _ _).mp h1
                    obtain ⟨w1, rfl, hw1, hw1all⟩ := dropPlus_eq_some h2
                    obtain ⟨w2, rfl, hw2, hw2all⟩ := dropPlus_eq_some h3
                    obtain ⟨d, rfl, hd, hdall⟩ := dropPlus_eq_some h4
                    obtain ⟨w3, rfl, hw3, hw3all⟩ := dropPlus_eq_some h5
                    obtain ⟨kw3a, rfl, hkw3a⟩ := (dropCi_eq_some_iff _ _ _).mp h6
                    cases hS : (c.toUpper == 'S') with
                    | true =>
                      simp only [skipOptionalS, hS, if_true] at h
                      cases h7 : dropPlus isJsSpace rest with
                      | none => simp [h7] at h
                      | some r9 =>
                        simp only [h7] at h
                        cases h8 : dropCi "ONLY".data r9 with
                        | none => simp [h8] at h
                        | some r10 =>
                          simp only [h8] at h
                          obtain ⟨w4, rfl, hw4, hw4all⟩ := dropPlus_eq_some h7
                          obtain ⟨kw4, rfl, hkw4⟩ := (dropCi_eq_some_iff _ _ _).mp h8
                          subst hr2eq
                          refine ⟨kwF ++ w1 ++ kw2 ++ w2 ++ d ++ w3 ++ (kw3a ++ [c]) ++ w4 ++ kw4,
                            r10, by simp, (dropWhile_isEmpty_iff _ _).mp h, ?_⟩
                          refine ⟨kwF, w1, kw2, w2, d, w3, kw3a ++ [c], w4, kw4, by simp,
                            hkwF, hw1, hw1all, hkw2ci, hw2, hw2all, hd, hdall, hw3, hw3all,
                            Or.inr ?_, hw4, hw4all, hkw4⟩
                          show (kw3a ++ [c]).map Char.toUpper = "ROWS".data
                          rw [List.map_append, hkw3a]
                          simp only [List.map_cons, List.map_nil]
                          rw [show c.toUpper = 'S' by simpa using hS]
                          rfl
                    | false =>
                      simp only [skipOptionalS, hS, Bool.false_eq_true, if_false] at h
                      cases h7 : dropPlus isJsSpace (c :: rest) with
                      | none => simp [h7] at h
                      | some r9 =>
                        simp only [h7] at h
                        cases h8 : dropCi "ONLY".data r9 with
                        | none => simp [h8] at h
                        | some r10 =>
                          simp only [h8] at h
                          obtain ⟨w4, hw4eq, hw4, hw4all⟩ := dropPlus_eq_some h7
                          obtain ⟨kw4, rfl, hkw4⟩ := (dropCi_eq_some_iff _ _ _).mp h8
                          subst hr2eq
                          rw [hw4eq]
                          refine ⟨kwF ++ w1 ++ kw2 ++ w2 ++ d ++ w3 ++ kw3a ++ w4 ++ kw4,
                            r10, by simp, (dropWhile_isEmpty_iff _ _).mp h, ?_⟩
                          exact ⟨kwF, w1, kw2, w2, d, w3, kw3a, w4, kw4, by simp,
                            hkwF, hw1, hw1all, hkw2ci, hw2, hw2all, hd, hdall, hw3, hw3all,
                            Or.inl hkw3a, hw4, hw4all, hkw4⟩
  · rintro ⟨core, sp, rfl, hsp, kwF, w1, kw2, w2, d, w3, kw3, w4, kw4, rfl,
      hkwF, hw1, hw1all, hkw2ci, hw2, hw2all, hd, hdall, hw3, hw3all, hkw3ci, hw4, hw4all, hkw4⟩
    unfold fetchTail
    have halt : ∀ X : List Char,
        (dropCi "FIRST".data (kw2 ++ X)).orElse
          (fun _ => dropCi "NEXT".data (kw2 ++ X)) = some X := by
      intro X
      rcases hkw2ci with hkw2 | hkw2
      · rw [dropCi_append hkw2]
        rfl
      · obtain ⟨c, cs', hkweq, hcu, _⟩ := ciword_head hkw2
        have hfail : dropCi "FIRST".data (kw2 ++ X) = none := by
          rw [hkweq]
          show dropCi ('F' :: "IRST".data) (c :: (cs' ++ X)) = none
          have hcF : (c.toUpper == 'F') = false := by rw [hcu]; rfl
          simp [dropCi, hcF]
        rw [hfail]
        simp only [Option.orElse]
        exact dropCi_append hkw2
    have hrow : ∃ rmid, dropCi "ROW".data (kw3 ++ (w4 ++ (kw4 ++ sp))) = some rmid ∧
        skipOptionalS rmid = w4 ++ (kw4 ++ sp) := by
      rcases hkw3ci with hkw3 | hkw3
      · exact ⟨w4 ++ (kw4 ++ sp), dropCi_append hkw3, skipOptionalS_space _ hw4all hw4⟩
      · obtain ⟨k1, t1, rfl, hk1, h1ci⟩ := ciword_head hkw3
        obtain ⟨k2, t2, rfl, hk2, h2ci⟩ := ciword_head h1ci
        obtain ⟨k3, t3, rfl, hk3, h3ci⟩ := ciword_head h2ci
        obtain ⟨k4, t4, rfl, hk4, h4ci⟩ := ciword_head h3ci
        have ht4 : t4 = [] := by
          cases t4 with
          | nil => rfl
          | cons a as => exact absurd h4ci (by simp [CiWord])
        subst ht4
        refine ⟨k4 :: (w4 ++ (kw4 ++ sp)), ?_, skipOptionalS_consS _ hk4⟩
        have hsplit : (k1 :: k2 :: k3 :: [k4]) ++ (w4 ++ (kw4 ++ sp))
            = (k1 :: k2 :: k3 :: []) ++ (k4 :: (w4 ++ (kw4 ++ sp))) := by simp
        rw [hsplit]
        apply dropCi_append
        simp only [List.map_cons, List.map_nil, hk1, hk2, hk3]
    obtain ⟨rmid, hrowEq, hskip⟩ := hrow
    have hkw2head : ∀ x ∈ (kw2 ++ (w2 ++ (d ++ (w3 ++ (kw3 ++ (w4 ++ (kw4 ++ sp))))))).head?,
        isJsSpace x = false := by
      rcases hkw2ci with hkw2 | hkw2
      · obtain ⟨c, cs', rfl, hcu, _⟩ := ciword_head hkw2
        intro x hx
        simp only [List.cons_append, List.head?_cons, Option.mem_def, Option.some.injEq] at hx
        subst hx
        exact (toUpper_letter_facts hcu (by decide) (by decide)).2.1
      · obtain ⟨c, cs', rfl, hcu, _⟩ := ciword_head hkw2
        intro x hx
        simp only [List.cons_append, List.head?_cons, Option.mem_def, Option.some.injEq] at hx
        subst hx
        exact (toUpper_letter_facts hcu (by decide) (by decide)).2.1
    have hkw3head : ∀ x ∈ (kw3 ++ (w4 ++ (kw4 ++ sp))).head?, isJsSpace x = false := by
      rcases hkw3ci with hkw3 | hkw3
      · obtain ⟨c, cs', rfl, hcu, _⟩ := ciword_head hkw3
        intro x hx
        simp only [List.cons_append, List.head?_cons, Option.mem_def, Option.some.injEq] at hx
        subst hx
        exact (toUpper_letter_facts hcu (by decide) (by decide)).2.1
      · obtain ⟨c, cs', rfl, hcu, _⟩ := ciword_head hkw3
        intro x hx
        simp only [List.cons_append, List.head?_cons, Option.mem_def, Option.some.injEq] at hx
        subst hx
        exact (toUpper_letter_facts hcu (by decide) (by decide)).2.1
    have hkw4head : ∀ x ∈ (kw4 ++ sp).head?, isJsSpace x = false := by
      obtain ⟨c, cs', rfl, hcu, _⟩ := ciword_head hkw4
      intro x hx
      simp only [List.cons_append, List.head?_cons, Option.mem_def, Option.some.injEq] at hx
      subst hx
      exact (toUpper_letter_facts hcu (by decide) (by decide)).2.1
    rw [show kwF ++ w1 ++ kw2 ++ w2 ++ d ++ w3 ++ kw3 ++ w4 ++ kw4 ++ sp
        = kwF ++ (w1 ++ (kw2 ++ (w2 ++ (d ++ (w3 ++ (kw3 ++ (w4 ++ (kw4 ++ sp)))))))) by simp]
    simp only [dropCi_append hkwF,
      dropPlus_append hw1all hw1 hkw2head,
      halt,
      dropPlus_append hw2all hw2 (head_all_imp _ hd hdall digit_space_sep),
      dropPlus_append hdall hd (head_all_imp _ hw3 hw3all space_digit_sep),
      dropPlus_append hw3all hw3 hkw3head,
      hrowEq, hskip,
      dropPlus_append hw4all hw4 hkw4head,
      dropCi_append hkw4]
    exact (dropWhile_isEmpty_iff _ _).mpr hsp

/-- The character preceding the current scan position: the last character of
the consumed prefix `pre` if non-empty, else the ambient previous character. -/
def lastOr (prev : Option Char) (pre : List Char) : Option Char :=
  match pre.getLast? with
  | some c => some c
  | none => prev

theorem lastOr_none (pre : List Char) : lastOr none pre = pre.getLast? := by
  unfold lastOr
  cases pre.getLast? <;> rfl

theorem lastOr_cons (prev : Option Char) (c : Char) (pre : List Char) :
    lastOr prev (c :: pre) = lastOr (some c) pre := by
  unfold lastOr
  cases pre with
  | nil => rfl
  | cons d l =>
    rw [List.getLast?_cons_cons]
    cases hgl : (d :: l).getLast? with
    | none => simp at hgl
    | some y => rfl

/-- `scanMatch` succeeds iff some split of the input has a word boundary and a
successful anchored tail match. -/
theorem scanMatch_iff (tail : List Char → Bool) :
    ∀ cs prev, scanMatch tail prev cs = true ↔
      ∃ pre c rest, cs = pre ++ c :: rest ∧
        wordBoundary (lastOr prev pre) c = true ∧ tail (c :: rest) = true := by
  intro cs
  induction cs with
  | nil =>
    intro prev
    simp only [scanMatch]
    constructor
    · rintro ⟨⟩
    · rintro ⟨pre, c, rest, h, _, _⟩
      exact absurd h (by simp)
  | cons a as ih =>
    intro prev
    simp only [scanMatch, Bool.or_eq_true, Bool.and_eq_true]
    constructor
    · rintro (⟨hb, ht⟩ | h)
      · exact ⟨[], a, as, rfl, by simpa [lastOr] using hb, ht⟩
      · obtain ⟨pre, c, rest, heq, hb, ht⟩ := (ih (some a)).mp h
        exact ⟨a :: pre, c, rest, by rw [heq]; rfl, by rwa [lastOr_cons], ht⟩
    · rintro ⟨pre, c, rest, heq, hb, ht⟩
      cases pre with
      | nil =>
        simp only [List.nil_append, List.cons.injEq] at heq
        obtain ⟨rfl, rfl⟩ := heq
        exact Or.inl ⟨by simpa [lastOr] using hb, ht⟩
      | cons p pre' =>
        simp only [List.cons_append, List.cons.injEq] at heq
        obtain ⟨rfl, heq'⟩ := heq
        exact Or.inr ((ih (some a)).mpr ⟨pre', c, rest, heq', by rwa [lastOr_cons] at hb, ht⟩)

theorem head?_dropWhile_not (p : Char → Bool) (l : List Char) :
    ∀ c ∈ (l.dropWhile p).head?, p c = false := by
  induction l with
  | nil => simp
  | cons a as ih =>
    cases hpa : p a with
    | true =>
      intro c hc
      rw [List.dropWhile_cons, if_pos hpa] at hc
      exact ih c hc
    | false =>
      intro c hc
      rw [List.dropWhile_cons] at hc
      simp only [hpa, Bool.false_eq_true, if_false, List.head?_cons, Option.mem_def,
        Option.some.injEq] at hc
      subst hc
      exact hpa

/-- A trimmed string never ends in whitespace. -/
theorem jsTrim_getLast_not_space (s : List Char) :
    ∀ c ∈ (jsTrim s).getLast?, isJsSpace c = false := by
  intro c hc
  unfold jsTrim at hc
  rw [List.getLast?_reverse] at hc
  exact head?_dropWhile_not _ _ c hc

theorem boundary_to_prefix {pre : List Char} {c : Char}
    (hb : wordBoundary (lastOr none pre) c = true) (hc : isWordChar c = true) :
    ∀ x ∈ pre.getLast?, isWordChar x = false := by
  intro x hx
  rw [lastOr_none] at hb
  rw [Option.mem_def] at hx
  rw [hx] at hb
  simp only [wordBoundary, hc] at hb
  cases hw : isWordChar x with
  | false => rfl
  | true => rw [hw] at hb; simp at hb

theorem prefix_to_boundary {pre : List Char} {c : Char}
    (hpre : ∀ x ∈ pre.getLast?, isWordChar x = false) (hc : isWordChar c = true) :
    wordBoundary (lastOr none pre) c = true := by
  rw [lastOr_none]
  cases hl : pre.getLast? with
  | none => simpa [wordBoundary] using hc
  | some p =>
    have hp := hpre p hl
    simp [wordBoundary, hp, hc]

/-- Every trailing row-limit shape starts with a word character. -/
theorem tailShape_head_word {core : List Char} (h : TailShape core) :
    ∃ c rest, core = c :: rest ∧ isWordChar c = true := by
  rcases h with ⟨kw, w, d, heq, hkw, _⟩ | ⟨kw, w, d, w2, kw2, w3, d2, heq, hkw, _⟩ |
    ⟨kw, w1, kw2, w2, d, w3, kw3, w4, kw4, heq, hkw, _⟩
  · obtain ⟨ch, kt, rfl, hu, _⟩ := ciword_head hkw
    exact ⟨ch, kt ++ w ++ d, by rw [heq]; simp,
      (toUpper_letter_facts hu (by decide) (by decide)).1⟩
  · obtain ⟨ch, kt, rfl, hu, _⟩ := ciword_head hkw
    exact ⟨ch, kt ++ w ++ d ++ w2 ++ kw2 ++ w3 ++ d2, by rw [heq]; simp,
      (toUpper_letter_facts hu (by decide) (by decide)).1⟩
  · obtain ⟨ch, kt, rfl, hu, _⟩ := ciword_head hkw
    exact ⟨ch, kt ++ w1 ++ kw2 ++ w2 ++ d ++ w3 ++ kw3 ++ w4 ++ kw4, by rw [heq]; simp,
      (toUpper_letter_facts hu (by decide) (by decide)).1⟩

/-- A successful scan on a trimmed string forces the trailing-whitespace part
of the matched tail to be empty. -/
theorem sp_nil_of_trimmed {s pre core sp : List Char} {c : Char} {rest : List Char}
    (hsplit : jsTrim s = pre ++ c :: rest) (hcr : c :: rest = core ++ sp)
    (hsp : AllChars isJsSpace sp) : sp = [] := by
  cases hspn : sp with
  | nil => rfl
  | cons a as =>
    exfalso
    subst hspn
    have hlast : (jsTrim s).getLast? = (a :: as).getLast? := by
      rw [hsplit, hcr, show pre ++ (core ++ (a :: as)) = (pre ++ core) ++ (a :: as) by simp]
      exact List.getLast?_append_of_ne_nil _ (by simp)
    obtain ⟨x, hx⟩ : ∃ x, (a :: as).getLast? = some x := by
      cases hgl : (a :: as).getLast? with
      | none => simp at hgl
      | some y => exact ⟨y, rfl⟩
    have hxs : isJsSpace x = true := hsp x (List.mem_of_mem_getLast? hx)
    have := jsTrim_getLast_not_space s x (by rw [hlast]; exact hx)
    rw [this] at hxs
    exact absurd hxs (by simp)

/-- The main characterization: `hasLimitClause` holds iff the trimmed
statement ends in one of the three row-limit patterns at a word boundary. -/
theorem hasLimitClause_iff_endsWith (s : List Char) :
    hasLimitClause s = true ↔ EndsWithRowLimit (jsTrim s) := by
  unfold hasLimitClause
  simp only [Bool.or_eq_true]
  constructor
  · rintro ((hA | hB) | hC)
    · obtain ⟨pre, c, rest, hsplit, hb, ht⟩ := (scanMatch_iff _ _ _).mp hA
      obtain ⟨core, sp, hcr, hspall, hshape⟩ := (limitOffsetTail_iff _).mp ht
      have hspn : sp = [] := sp_nil_of_trimmed hsplit hcr hspall
      subst hspn
      rw [List.append_nil] at hcr
      have hts : TailShape core := hshape.elim (fun hx => Or.inl hx) (fun hx => Or.inr (Or.inl hx))
      obtain ⟨c', rest', hcore, hword⟩ := tailShape_head_word hts
      have hcw : isWordChar c = true := by
        have hcc : c :: rest = c' :: rest' := by rw [← hcore]; exact hcr
        injection hcc with h1 h2
        rw [h1]; exact hword
      exact ⟨pre, core, by rw [hsplit, hcr], boundary_to_prefix hb hcw, hts⟩
    · obtain ⟨pre, c, rest, hsplit, hb, ht⟩ := (scanMatch_iff _ _ _).mp hB
      obtain ⟨core, sp, hcr, hspall, hshape⟩ := (limitTail_iff _).mp ht
      have hspn : sp = [] := sp_nil_of_trimmed hsplit hcr hspall
      subst hspn
      rw [List.append_nil] at hcr
      have hts : TailShape core := Or.inl hshape
      obtain ⟨c', rest', hcore, hword⟩ := tailShape_head_word hts
      have hcw : isWordChar c = true := by
        have hcc : c :: rest = c' :: rest' := by rw [← hcore]; exact hcr
        injection hcc with h1 h2
        rw [h1]; exact hword
      exact ⟨pre, core, by rw [hsplit, hcr], boundary_to_prefix hb hcw, hts⟩
    · obtain ⟨pre, c, rest, hsplit, hb, ht⟩ := (scanMatch_iff _ _ _).mp hC
      obtain ⟨core, sp, hcr, hspall, hshape⟩ := (fetchTail_iff _).mp ht
      have hspn : sp = [] := sp_nil_of_trimmed hsplit hcr hspall
      subst hspn
      rw [List.append_nil] at hcr
      have hts : TailShape core := Or.inr (Or.inr hshape)
      obtain ⟨c', rest', hcore, hword⟩ := tailShape_head_word hts
      have hcw : isWordChar c = true := by
        have hcc : c :: rest = c' :: rest' := by rw [← hcore]; exact hcr
        injection hcc with h1 h2
        rw [h1]; exact hword
      exact ⟨pre, core, by rw [hsplit, hcr], boundary_to_prefix hb hcw, hts⟩
  · rintro ⟨pre, tl, hsplit, hpre, hts⟩
    obtain ⟨c, rest, rfl, hword⟩ := tailShape_head_word hts
    have hb : wordBoundary (lastOr none pre) c = true := prefix_to_boundary hpre hword
    rcases hts with hshape | hshape | hshape
    · refine Or.inl (Or.inr ((scanMatch_iff _ _ _).mpr ⟨pre, c, rest, hsplit, hb, ?_⟩))
      exact (limitTail_iff _).mpr ⟨c :: rest, [], by simp, by intro x hx; simp at hx, hshape⟩
    · refine Or.inl (Or.inl ((scanMatch_iff _ _ _).mpr ⟨pre, c, rest, hsplit, hb, ?_⟩))
      exact (limitOffsetTail_iff _).mpr
        ⟨c :: rest, [], by simp, by intro x hx; simp at hx, Or.inr hshape⟩
    · refine Or.inr ((scanMatch_iff _ _ _).mpr ⟨pre, c, rest, hsplit, hb, ?_⟩)
      exact (fetchTail_iff _).mpr ⟨c :: rest, [], by simp, by intro x hx; simp at hx, hshape⟩

/-! ### Claim C1 -/

/--
Claim C1, counterexample.  The claim states that `hasRowLimit` returns true
for every statement ending with a row-limit pattern *modulo an optional
trailing semicolon*.  The source regexes are anchored at the end of
`sql.trim()` with no allowance for a semicolon, so
`hasLimitClause "SELECT * FROM t LIMIT 10;"` is false although the statement
ends with `LIMIT 10` modulo trailing whitespace and a trailing semicolon.
-/
theorem hasRowLimit_cex_trailing_semicolon :
    ClaimHasRowLimit "SELECT * FROM t LIMIT 10;".data ∧
    hasLimitClause "SELECT * FROM t LIMIT 10;".data = false := by
  constructor
  · unfold ClaimHasRowLimit
    rw [if_pos (by decide)]
    have hred : rtrimWs (rtrimWs "SELECT * FROM t LIMIT 10;".data).dropLast
        = "SELECT * FROM t LIMIT 10".data := by decide
    rw [hred]
    exact ⟨"SELECT * FROM t ".data, "LIMIT 10".data, by decide, by decide,
      Or.inl ⟨"LIMIT".data, " ".data, "10".data, by decide, by decide, by decide,
        by decide, by decide, by decide⟩⟩
  · decide

/--
Claim C1 (amended): `hasRowLimit` returns true exactly for the statements
that end, modulo trailing whitespace only (no trailing semicolon is
tolerated), with `LIMIT <n>`, `LIMIT <n> OFFSET <n>`, or
`FETCH FIRST|NEXT <n> ROW|ROWS ONLY`, the keyword being preceded by a word
boundary; on every other statement it returns false.
-/
theorem hasRowLimit_trailing_pattern_charac (s : List Char) :
    hasLimitClause s = true ↔ EndsWithRowLimit (jsTrim s) :=
  hasLimitClause_iff_endsWith s

/-! ### Claim C3 -/

/--
Embedding of the call-site guard in `executeQueryCommand`
(src/unnamed/part_006, lines 72-77):

    if (isSelectQuery(sql) && !hasLimitClause(sql)) {
      sql = addLimitClause(sql, 100);
    }
-/
def maybeAddLimit (sql : List Char) : List Char :=
  if isSelectQuery sql && !hasLimitClause sql then addLimitClause sql 100 else sql

/-- The spec's construction for `addRowLimit`, with the trimming steps of the
source made explicit: trim; if the trimmed statement ends with `;`, drop the
semicolon, trim again, append ` LIMIT n` and reattach `;`; otherwise append
` LIMIT n` to the trimmed statement. -/
def addRowLimitSpec (sql : List Char) (n : Nat) : List Char :=
  let t := jsTrim sql
  if t.getLast? = some ';' then
    jsTrim t.dropLast ++ " LIMIT ".data ++ (Nat.repr n).data ++ [';']
  else
    t ++ " LIMIT ".data ++ (Nat.repr n).data

/--
Claim C3, counterexample.  The claim states that `addRowLimit` leaves every
statement already matched by `hasRowLimit` unaltered; in the source
`addLimitClause` appends unconditionally (the guard lives at the call site),
so `addLimitClause "SELECT * FROM t LIMIT 10" 100` yields
`"SELECT * FROM t LIMIT 10 LIMIT 100"`.  Moreover the claim describes the
result as "the statement" with ` LIMIT n` appended, but the source appends to
the *trimmed* statement, as the second conjunct shows.
-/
theorem addRowLimit_cex_already_limited :
    (hasLimitClause "SELECT * FROM t LIMIT 10".data = true ∧
      addLimitClause "SELECT * FROM t LIMIT 10".data 100
        = "SELECT * FROM t LIMIT 10 LIMIT 100".data ∧
      addLimitClause "SELECT * FROM t LIMIT 10".data 100
        ≠ "SELECT * FROM t LIMIT 10".data) ∧
    addLimitClause "  SELECT 1".data 100 ≠ "  SELECT 1 LIMIT 100".data := by
  refine ⟨⟨by decide, by decide, by decide⟩, by decide⟩

/--
Claim C3 (amended): `addRowLimit` always returns the trimmed statement (with
an inner semicolon-and-retrim step when the trimmed statement ends with `;`)
followed by ` LIMIT n` and the reattached semicolon; it never checks
`hasRowLimit` itself.  The guard is at the call site: the executor's
limit-injection step (`maybeAddLimit`) only calls `addRowLimit` when
`hasRowLimit` is false, so statements already matched by `hasRowLimit` are
left unaltered by that step.
-/
theorem addRowLimit_charac_and_guard :
    (∀ (s : List Char) (n : Nat), addLimitClause s n = addRowLimitSpec s n) ∧
    (∀ s : List Char, hasLimitClause s = true → maybeAddLimit s = s) := by
  constructor
  · intro s n
    unfold addLimitClause addRowLimitSpec
    by_cases h : (jsTrim s).getLast? = some ';'
    · simp [beq_iff_eq, h]
    · simp [beq_iff_eq, h]
  · intro s h
    unfold maybeAddLimit
    rw [h]
    simp

/-- Witness for the amended claim C3 at a concrete input. -/
theorem addRowLimit_charac_and_guard_witness :
    maybeAddLimit "SELECT 1 LIMIT 5".data = "SELECT 1 LIMIT 5".data :=
  addRowLimit_charac_and_guard.2 "SELECT 1 LIMIT 5".data (by decide)

/-! ### Claim C6 -/

/-- Claim C6's reading of "starts with the keyword as a whole word": the
keyword is a prefix and is followed by end-of-string or a non-word character
(the regex `\b` convention). -/
def StartsWithWord (kw : List Char) (t : List Char) : Prop :=
  ∃ rest, t = kw ++ rest ∧ (∀ c ∈ rest.head?, isWordChar c = false)

/-- Claim C6's Read condition: after whitespace normalization and case
folding, the statement starts with `SELECT` or `WITH` as whole words. -/
def ClaimReadCondition (s : List Char) : Prop :=
  StartsWithWord "SELECT".data (normalizeSql s) ∨ StartsWithWord "WITH".data (normalizeSql s)

/--
Claim C6, counterexample.  The claim states the statement is classified Read
iff it starts with `SELECT` or `WITH` as whole words (case-insensitively).
`"select*from t"` starts with `SELECT` as a whole word (the following `*` is
a non-word character, hence a word boundary), yet `isSelectQuery` requires a
literal following space after normalization and returns false.
-/
theorem classify_cex_whole_word :
    ClaimReadCondition "select*from t".data ∧ isSelectQuery "select*from t".data = false := by
  constructor
  · exact Or.inl ⟨"*FROM T".data, by decide, by decide⟩
  · decide

/--
Claim C6 (amended): after collapsing whitespace runs to single spaces,
trimming and upper-casing, the statement is classified Read iff the
normalized text starts with `SELECT ` or `WITH ` (keyword followed by a
space); it is classified Write iff, for one of the fourteen listed mutating
keywords, the normalized text starts with the keyword followed by a space or
equals the keyword exactly.  The spec's two examples are also checked.
-/
theorem classify_charac :
    (∀ s : List Char,
      (isSelectQuery s = true ↔
        (∃ rest, normalizeSql s = "SELECT ".data ++ rest) ∨
        (∃ rest, normalizeSql s = "WITH ".data ++ rest)) ∧
      (isModificationQuery s = true ↔
        ∃ kw ∈ modificationKeywords,
          (∃ rest, normalizeSql s = (kw ++ [' ']) ++ rest) ∨ normalizeSql s = kw)) ∧
    isModificationQuery "update users set x=1".data = true ∧
    isSelectQuery "  with cte as (select 1) select * from cte".data = true := by
  refine ⟨fun s => ⟨?_, ?_⟩, by decide, by decide⟩
  · unfold isSelectQuery
    simp only [Bool.or_eq_true, List.isPrefixOf_iff_prefix]
    constructor
    · rintro (⟨t, ht⟩ | ⟨t, ht⟩)
      · exact Or.inl ⟨t, ht.symm⟩
      · exact Or.inr ⟨t, ht.symm⟩
    · rintro (⟨t, ht⟩ | ⟨t, ht⟩)
      · exact Or.inl ⟨t, ht.symm⟩
      · exact Or.inr ⟨t, ht.symm⟩
  · unfold isModificationQuery
    rw [List.any_eq_true]
    constructor
    · rintro ⟨kw, hmem, hor⟩
      simp only [Bool.or_eq_true, List.isPrefixOf_iff_prefix, beq_iff_eq] at hor
      rcases hor with ⟨t, ht⟩ | ht
      · exact ⟨kw, hmem, Or.inl ⟨t, ht.symm⟩⟩
      · exact ⟨kw, hmem, Or.inr ht⟩
    · rintro ⟨kw, hmem, hor⟩
      refine ⟨kw, hmem, ?_⟩
      simp only [Bool.or_eq_true, List.isPrefixOf_iff_prefix, beq_iff_eq]
      rcases hor with ⟨t, ht⟩ | ht
      · exact Or.inl ⟨t, ht.symm⟩
      · exact Or.inr ht

/-! ### Claim C4: the statement splitter -/

/-- The loop state of `splitSqlStatements`: the statement being accumulated,
the string/comment flags, and the completed statements (in reverse).
`strCh` is only meaningful while `inStr` is set (the source initializes
`stringChar` to an empty string and never reads it outside a string). -/
structure SplitSt where
  cur : List Char
  inStr : Bool
  strCh : Char
  inLC : Bool
  inBC : Bool
  acc : List (List Char)

/--
One iteration of the `splitSqlStatements` loop (src/unnamed/part_006,
lines 164-233), given the current character `c` and the one-character
lookahead `next`.  Returns the updated state and whether the lookahead was
also consumed (the `i++` cases).  The branch order and conditions mirror the
source exactly; in particular the line-comment-start branch does not test
`inLineComment`, and the block-comment opener consumes only the `/`.
-/
def splitStep (c : Char) (next : Option Char) (st : SplitSt) : SplitSt × Bool :=
  if !st.inStr && !st.inBC && c == '-' && next == some '-' then
    ({ st with cur := st.cur ++ [c], inLC := true }, false)
  else if st.inLC then
    ({ st with cur := st.cur ++ [c], inLC := !(c == '\n') }, false)
  else if !st.inStr && !st.inLC && c == '/' && next == some '*' then
    ({ st with cur := st.cur ++ [c], inBC := true }, false)
  else if st.inBC then
    if c == '*' && next == some '/' then
      ({ st with cur := st.cur ++ [c, '/'], inBC := false }, true)
    else
      ({ st with cur := st.cur ++ [c] }, false)
  else if !st.inStr && (c == '\'' || c == '"') then
    ({ st with cur := st.cur ++ [c], inStr := true, strCh := c }, false)
  else if st.inStr then
    if c == st.strCh then
      if next == some st.strCh then
        ({ st with cur := st.cur ++ [c, st.strCh] }, true)
      else
        ({ st with cur := st.cur ++ [c], inStr := false }, false)
    else
      ({ st with cur := st.cur ++ [c] }, false)
  else if c == ';' then
    ({ st with
        cur := ([] : List Char)
        acc := if (jsTrim st.cur).isEmpty then st.acc else st.cur :: st.acc }, false)
  else
    ({ st with cur := st.cur ++ [c] }, false)

/-- The driver loop of `splitSqlStatements`: run `splitStep` to exhaustion,
then flush a trailing statement that contains non-whitespace. -/
def splitRun : List Char → SplitSt → List (List Char)
  | [], st => if (jsTrim st.cur).isEmpty then st.acc.reverse else (st.cur :: st.acc).reverse
  | [c], st => splitRun [] (splitStep c none st).1
  | c :: c2 :: rest, st =>
    let r := splitStep c (some c2) st
    if r.2 then splitRun rest r.1 else splitRun (c2 :: rest) r.1

/-- Embedding of `splitSqlStatements` (src/unnamed/part_006, lines 156-241). -/
def splitSqlStatements (text : List Char) : List (List Char) :=
  splitRun text ⟨[], false, ' ', false, false, []⟩

/-- Prepend a character to the first segment of a segment list. -/
def consHead (c : Char) : List (List Char) → List (List Char)
  | s :: ss => (c :: s) :: ss
  | [] => [[c]]

/-- Scanner context, following spec section 4.1. -/
inductive ScanCtx where
  | normal
  | inStr (q : Char)
  | lineC
  | blockC
deriving DecidableEq

/--
Specification splitter following spec sections 4.1-4.2: scan the text in the
string/comment contexts and cut exactly at semicolons scanned in Normal
context, so a semicolon inside a single- or double-quoted region, a line
comment, or a block comment is ordinary text.  Every segment between cuts is
returned (including empty ones; the comparison with the source filters them).
The scanner uses the same one-character lookahead conventions as the source:
comment openers consume one character, comment closers and doubled-quote
escapes consume two.
-/
def scanSplit : ScanCtx → List Char → List (List Char)
  | _, [] => [[]]
  | ScanCtx.normal, c :: rest =>
    if c = ';' then [] :: scanSplit ScanCtx.normal rest
    else if c = '-' ∧ rest.head? = some '-' then consHead c (scanSplit ScanCtx.lineC rest)
    else if c = '/' ∧ rest.head? = some '*' then consHead c (scanSplit ScanCtx.blockC rest)
    else if c = '\'' ∨ c = '"' then consHead c (scanSplit (ScanCtx.inStr c) rest)
    else consHead c (scanSplit ScanCtx.normal rest)
  | ScanCtx.lineC, c :: rest =>
    if c = '\n' then consHead c (scanSplit ScanCtx.normal rest)
    else consHead c (scanSplit ScanCtx.lineC rest)
  | ScanCtx.blockC, c :: rest =>
    match rest with
    | c2 :: rest2 =>
      if c = '*' ∧ c2 = '/' then consHead c (consHead c2 (scanSplit ScanCtx.normal rest2))
      else consHead c (scanSplit ScanCtx.blockC (c2 :: rest2))
    | [] => consHead c (scanSplit ScanCtx.blockC [])
  | ScanCtx.inStr q, c :: rest =>
    if c = q then
      match rest with
      | c2 :: rest2 =>
        if c2 = q then consHead c (consHead c2 (scanSplit (ScanCtx.inStr q) rest2))
        else consHead c (scanSplit ScanCtx.normal (c2 :: rest2))
      | [] => consHead c (scanSplit ScanCtx.normal [])
    else consHead c (scanSplit (ScanCtx.inStr q) rest)

/-- Package scanner context and remaining flags as a splitter state.  For a
string context the tracked quote character is the context's; otherwise the
stale `strCh` is irrelevant (mirroring the source, which never clears
`stringChar`). -/
def stOf (ctx : ScanCtx) (strCh : Char) (cur : List Char) (acc : List (List Char)) : SplitSt :=
  match ctx with
  | ScanCtx.normal => ⟨cur, false, strCh, false, false, acc⟩
  | ScanCtx.inStr q => ⟨cur, true, q, false, false, acc⟩
  | ScanCtx.lineC => ⟨cur, false, strCh, true, false, acc⟩
  | ScanCtx.blockC => ⟨cur, false, strCh, false, true, acc⟩

/-- Apply a function to the first segment of a segment list. -/
def mapHead (f : List Char → List Char) : List (List Char) → List (List Char)
  | s :: ss => f s :: ss
  | [] => []

theorem consHead_ne_nil (c : Char) (l : List (List Char)) : consHead c l ≠ [] := by
  cases l <;> simp [consHead]

theorem scanSplit_ne_nil (ctx : ScanCtx) (text : List Char) : scanSplit ctx text ≠ [] := by
  cases ctx with
  | normal =>
    cases text with
    | nil => simp [scanSplit]
    | cons c rest =>
      simp only [scanSplit]
      split
      · simp
      split
      · exact consHead_ne_nil _ _
      split
      · exact consHead_ne_nil _ _
      split
      · exact consHead_ne_nil _ _
      · exact consHead_ne_nil _ _
  | lineC =>
    cases text with
    | nil => simp [scanSplit]
    | cons c rest =>
      simp only [scanSplit]
      split
      · exact consHead_ne_nil _ _
      · exact consHead_ne_nil _ _
  | blockC =>
    match text with
    | [] => simp [scanSplit]
    | [c] =>
      simp only [scanSplit]
      exact consHead_ne_nil _ _
    | c :: c2 :: rest =>
      simp only [scanSplit]
      split
      · exact consHead_ne_nil _ _
      · exact consHead_ne_nil _ _
  | inStr q =>
    match text with
    | [] => simp [scanSplit]
    | [c] =>
      simp only [scanSplit]
      split
      · exact consHead_ne_nil _ _
      · exact consHead_ne_nil _ _
    | c :: c2 :: rest =>
      simp only [scanSplit]
      split
      · split
        · exact consHead_ne_nil _ _
        · exact consHead_ne_nil _ _
      · exact consHead_ne_nil _ _

theorem mapHead_nil_append (l : List (List Char)) : mapHead (fun s => [] ++ s) l = l := by
  cases l <;> simp [mapHead]

theorem mapHead_append_consHead (cur : List Char) (c : Char) (l : List (List Char))
    (h : l ≠ []) :
    mapHead (fun s => cur ++ s) (consHead c l) = mapHead (fun s => (cur ++ [c]) ++ s) l := by
  cases l with
  | nil => exact absurd rfl h
  | cons s ss => simp [mapHead, consHead]

/-- The filter applied by the source splitter: keep statements whose trimmed
text is non-empty. -/
def keepStmt (s : List Char) : Bool := !(jsTrim s).isEmpty

theorem splitRun_scan_base (ctx : ScanCtx) (strCh : Char) (cur : List Char)
    (acc : List (List Char)) :
    splitRun [] (stOf ctx strCh cur acc) =
      acc.reverse ++ (mapHead (fun s => cur ++ s) (scanSplit ctx [])).filter keepStmt := by
  cases ctx <;>
    (simp only [splitRun, stOf, scanSplit, mapHead, List.append_nil, List.filter, keepStmt]
     cases h : (jsTrim cur).isEmpty <;> simp [h])

theorem splitRun_single (c : Char) (st : SplitSt) :
    splitRun [c] st = splitRun [] (splitStep c none st).1 := rfl

theorem splitRun_pair (c c2 : Char) (rest : List Char) (st : SplitSt) :
    splitRun (c :: c2 :: rest) st =
      if (splitStep c (some c2) st).2 then splitRun rest (splitStep c (some c2) st).1
      else splitRun (c2 :: rest) (splitStep c (some c2) st).1 := rfl

theorem scanSplit_normal_cons (c : Char) (l : List Char) :
    scanSplit ScanCtx.normal (c :: l) =
      if c = ';' then [] :: scanSplit ScanCtx.normal l
      else if c = '-' ∧ l.head? = some '-' then consHead c (scanSplit ScanCtx.lineC l)
      else if c = '/' ∧ l.head? = some '*' then consHead c (scanSplit ScanCtx.blockC l)
      else if c = '\'' ∨ c = '"' then consHead c (scanSplit (ScanCtx.inStr c) l)
      else consHead c (scanSplit ScanCtx.normal l) := rfl

theorem scanSplit_lineC_cons (c : Char) (l : List Char) :
    scanSplit ScanCtx.lineC (c :: l) =
      if c = '\n' then consHead c (scanSplit ScanCtx.normal l)
      else consHead c (scanSplit ScanCtx.lineC l) := rfl

theorem scanSplit_blockC_cons2 (c c2 : Char) (l : List Char) :
    scanSplit ScanCtx.blockC (c :: c2 :: l) =
      if c = '*' ∧ c2 = '/' then consHead c (consHead c2 (scanSplit ScanCtx.normal l))
      else consHead c (scanSplit ScanCtx.blockC (c2 :: l)) := rfl

theorem scanSplit_inStr_cons2 (q c c2 : Char) (l : List Char) :
    scanSplit (ScanCtx.inStr q) (c :: c2 :: l) =
      if c = q then
        if c2 = q then consHead c (consHead c2 (scanSplit (ScanCtx.inStr q) l))
        else consHead c (scanSplit ScanCtx.normal (c2 :: l))
      else consHead c (scanSplit (ScanCtx.inStr q) (c2 :: l)) := rfl

/-- The refinement between the source splitter loop and the specification
scanner: running the loop from any context-compatible state produces exactly
the already-emitted statements followed by the scanner's segments (the first
extended on the left by the statement in progress), filtered to those with
non-whitespace content. -/
theorem splitRun_scan :
    ∀ (n : Nat) (text : List Char), text.length ≤ n →
      ∀ (ctx : ScanCtx) (strCh : Char) (cur : List Char) (acc : List (List Char)),
        splitRun text (stOf ctx strCh cur acc) =
          acc.reverse ++ (mapHead (fun s => cur ++ s) (scanSplit ctx text)).filter keepStmt := by
  intro n
  induction n with
  | zero =>
    intro text hlen
    have : text = [] := List.length_eq_zero.mp (Nat.le_zero.mp hlen)
    subst this
    intro ctx strCh cur acc
    exact splitRun_scan_base ctx strCh cur acc
  | succ n ih =>
    intro text hlen ctx strCh cur acc
    match text with
    | [] => exact splitRun_scan_base ctx strCh cur acc
    | [c] =>
      have hlen0 : ([] : List Char).length ≤ n := by simp
      cases ctx with
      | normal =>
        by_cases h1 : c = ';'
        · subst h1
          have hIH := ih [] hlen0 ScanCtx.normal strCh []
            (if (jsTrim cur).isEmpty then acc else cur :: acc)
          simp only [stOf] at hIH
          rw [splitRun_single]
          simp only [splitStep, stOf]
          simp only [show ((';' : Char) == '-') = false from rfl,
            show ((';' : Char) == '/') = false from rfl,
            show ((';' : Char) == '\'') = false from rfl,
            show ((';' : Char) == '"') = false from rfl,
            show ((';' : Char) == ';') = true from rfl]
          simp only [Bool.and_false, Bool.false_and, Bool.and_true, Bool.true_and,
            Bool.not_false, Bool.or_self, Bool.false_eq_true, if_false, if_true]
          rw [hIH]
          simp only [scanSplit, if_pos rfl, mapHead_nil_append, mapHead, List.append_nil,
            List.filter_cons, keepStmt]
          cases hE : (jsTrim cur).isEmpty <;>
            simp [hE, keepStmt, show jsTrim ([] : List Char) = [] from rfl]
        · by_cases h4 : c = '\'' ∨ c = '"'
          · have hIH := ih [] hlen0 (ScanCtx.inStr c) strCh (cur ++ [c]) acc
            simp only [stOf] at hIH
            have hne : (c == ';') = false := by simpa using h1
            have hdash : (c == '-') = false := by
              rcases h4 with rfl | rfl <;> rfl
            have hslash : (c == '/') = false := by
              rcases h4 with rfl | rfl <;> rfl
            have hquote : ((c == '\'') || (c == '"')) = true := by
              rcases h4 with rfl | rfl <;> rfl
            rw [splitRun_single]
            simp only [splitStep, stOf, hne, hdash, hslash, hquote]
            simp only [Bool.and_false, Bool.false_and, Bool.and_true, Bool.true_and,
              Bool.not_false, Bool.false_eq_true, if_false, if_true]
            rw [hIH]
            rcases h4 with rfl | rfl <;> simp [scanSplit, consHead, mapHead]
          · have hIH := ih [] hlen0 ScanCtx.normal strCh (cur ++ [c]) acc
            simp only [stOf] at hIH
            have hne : (c == ';') = false := by simpa using h1
            have hq1 : (c == '\'') = false := by
              have : ¬(c = '\'') := fun h => h4 (Or.inl h)
              simpa using this
            have hq2 : (c == '"') = false := by
              have : ¬(c = '"') := fun h => h4 (Or.inr h)
              simpa using this
            rw [splitRun_single]
            simp only [splitStep, stOf, hne, hq1, hq2,
              show ((none : Option Char) == some '-') = false from rfl,
              show ((none : Option Char) == some '*') = false from rfl]
            simp only [Bool.and_false, Bool.false_and, Bool.and_true, Bool.true_and,
              Bool.not_false, Bool.or_self, Bool.false_eq_true, if_false,
              Bool.false_or, Bool.or_false]
            rw [hIH]
            simp [scanSplit, consHead, mapHead, h1, h4]
      | lineC =>
        by_cases h1 : c = '\n'
        · subst h1
          have hIH := ih [] hlen0 ScanCtx.normal strCh (cur ++ ['\n']) acc
          simp only [stOf] at hIH
          rw [splitRun_single]
          simp only [splitStep, stOf]
          simp only [show (('\n' : Char) == '-') = false from rfl,
            show (('\n' : Char) == '\n') = true from rfl]
          simp only [Bool.and_false, Bool.false_and, Bool.not_true, Bool.true_and,
            Bool.false_eq_true, if_false, if_true]
          rw [hIH]
          simp [scanSplit, consHead, mapHead]
        · by_cases h2 : c = '-'
          · subst h2
            have hIH := ih [] hlen0 ScanCtx.lineC strCh (cur ++ ['-']) acc
            simp only [stOf] at hIH
            rw [splitRun_single]
            simp only [splitStep, stOf]
            simp only [show (('-' : Char) == '\n') = false from rfl,
              show ((none : Option Char) == some '-') = false from rfl]
            simp only [Bool.and_false, Bool.false_and, Bool.not_false, Bool.true_and,
              Bool.and_true, Bool.false_eq_true, if_false, if_true]
            rw [hIH]
            simp [scanSplit, consHead, mapHead, h1]
          · have hIH := ih [] hlen0 ScanCtx.lineC strCh (cur ++ [c]) acc
            simp only [stOf] at hIH
            have hnl : (c == '\n') = false := by simpa using h1
            have hdash : (c == '-') = false := by simpa using h2
            rw [splitRun_single]
            simp only [splitStep, stOf, hnl, hdash]
            simp only [Bool.and_false, Bool.false_and, Bool.not_false, Bool.true_and,
              Bool.and_true, Bool.false_eq_true, if_false, if_true]
            rw [hIH]
            simp [scanSplit, consHead, mapHead, h1]
      | blockC =>
        have hIH := ih [] hlen0 ScanCtx.blockC strCh (cur ++ [c]) acc
        simp only [stOf] at hIH
        rw [splitRun_single]
        simp only [splitStep, stOf]
        simp only [show ((none : Option Char) == some '-') = false from rfl,
          show ((none : Option Char) == some '*') = false from rfl,
          show ((none : Option Char) == some '/') = false from rfl]
        simp only [Bool.and_false, Bool.false_and, Bool.not_false, Bool.not_true,
          Bool.true_and, Bool.and_true, Bool.false_eq_true, if_false, if_true]
        rw [hIH]
        simp [scanSplit, consHead, mapHead]
      | inStr q =>
        by_cases h1 : c = q
        · subst h1
          have hIH := ih [] hlen0 ScanCtx.normal c (cur ++ [c]) acc
          simp only [stOf] at hIH
          rw [splitRun_single]
          simp only [splitStep, stOf]
          simp only [beq_self_eq_true, Bool.not_true, Bool.false_and, Bool.and_false,
            show ((none : Option Char) == some c) = false from rfl,
            Bool.false_eq_true, if_false, if_true, Bool.true_and]
          rw [hIH]
          simp [scanSplit, consHead, mapHead]
        · have hIH := ih [] hlen0 (ScanCtx.inStr q) strCh (cur ++ [c]) acc
          simp only [stOf] at hIH
          have hcq : (c == q) = false := by simpa using h1
          rw [splitRun_single]
          simp only [splitStep, stOf, hcq]
          simp only [Bool.and_false, Bool.false_and, Bool.not_true, Bool.true_and,
            Bool.and_true, Bool.false_eq_true, if_false, if_true]
          rw [hIH]
          simp [scanSplit, consHead, mapHead, h1]
    | c :: c2 :: rest =>
      have hlen1 : (c2 :: rest).length ≤ n := by
        simp only [List.length_cons] at hlen ⊢
        omega
      have hlen2 : rest.length ≤ n := by
        simp only [List.length_cons] at hlen
        omega
      cases ctx with
      | normal =>
        by_cases h1 : c = ';'
        · subst h1
          have hIH := ih (c2 :: rest) hlen1 ScanCtx.normal strCh []
            (if (jsTrim cur).isEmpty then acc else cur :: acc)
          simp only [stOf] at hIH
          rw [splitRun_pair]
          simp only [splitStep, stOf]
          simp only [show ((';' : Char) == '-') = false from rfl,
            show ((';' : Char) == '/') = false from rfl,
            show ((';' : Char) == '\'') = false from rfl,
            show ((';' : Char) == '"') = false from rfl,
            show ((';' : Char) == ';') = true from rfl]
          simp only [Bool.and_false, Bool.false_and, Bool.and_true, Bool.true_and,
            Bool.not_false, Bool.or_self, Bool.false_eq_true, if_false, if_true]
          have hscan : scanSplit ScanCtx.normal (';' :: c2 :: rest)
              = [] :: scanSplit ScanCtx.normal (c2 :: rest) := by
            rw [scanSplit_normal_cons]
            simp
          rw [hIH, mapHead_nil_append, hscan]
          simp only [mapHead, List.append_nil, List.filter_cons]
          cases hE : (jsTrim cur).isEmpty <;>
            simp [hE, keepStmt]
        · by_cases h2 : c = '-' ∧ c2 = '-'
          · obtain ⟨rfl, rfl⟩ := h2
            have hIH := ih ('-' :: rest) hlen1 ScanCtx.lineC strCh (cur ++ ['-']) acc
            simp only [stOf] at hIH
            rw [splitRun_pair]
            simp only [splitStep, stOf]
            simp only [show (('-' : Char) == '-') = true from rfl,
              show (some '-' == some '-') = true from rfl]
            simp only [Bool.and_true, Bool.true_and, Bool.not_false, Bool.false_eq_true,
              if_false, if_true]
            have hscan : scanSplit ScanCtx.normal ('-' :: '-' :: rest)
                = consHead '-' (scanSplit ScanCtx.lineC ('-' :: rest)) := by
              rw [scanSplit_normal_cons]
              simp
            rw [hIH, hscan,
              mapHead_append_consHead cur '-' _ (scanSplit_ne_nil ScanCtx.lineC ('-' :: rest))]
          · by_cases h3 : c = '/' ∧ c2 = '*'
            · obtain ⟨rfl, rfl⟩ := h3
              have hIH := ih ('*' :: rest) hlen1 ScanCtx.blockC strCh (cur ++ ['/']) acc
              simp only [stOf] at hIH
              rw [splitRun_pair]
              simp only [splitStep, stOf]
              simp only [show (('/' : Char) == '-') = false from rfl,
                show (('/' : Char) == '/') = true from rfl,
                show (some '*' == some '*') = true from rfl]
              simp only [Bool.and_false, Bool.false_and, Bool.and_true, Bool.true_and,
                Bool.not_false, Bool.false_eq_true, if_false, if_true]
              have hscan : scanSplit ScanCtx.normal ('/' :: '*' :: rest)
                  = consHead '/' (scanSplit ScanCtx.blockC ('*' :: rest)) := by
                rw [scanSplit_normal_cons]
                simp
              rw [hIH, hscan,
                mapHead_append_consHead cur '/' _ (scanSplit_ne_nil ScanCtx.blockC ('*' :: rest))]
            · by_cases h4 : c = '\'' ∨ c = '"'
              · have hIH := ih (c2 :: rest) hlen1 (ScanCtx.inStr c) strCh (cur ++ [c]) acc
                simp only [stOf] at hIH
                have hne : (c == ';') = false := by simpa using h1
                have hdash : (c == '-') = false := by rcases h4 with rfl | rfl <;> rfl
                have hslash : (c == '/') = false := by rcases h4 with rfl | rfl <;> rfl
                have hquote : ((c == '\'') || (c == '"')) = true := by
                  rcases h4 with rfl | rfl <;> rfl
                rw [splitRun_pair]
                simp only [splitStep, stOf, hne, hdash, hslash, hquote]
                simp only [Bool.and_false, Bool.false_and, Bool.and_true, Bool.true_and,
                  Bool.not_false, Bool.false_eq_true, if_false, if_true]
                have hscan : scanSplit ScanCtx.normal (c :: c2 :: rest)
                    = consHead c (scanSplit (ScanCtx.inStr c) (c2 :: rest)) := by
                  rw [scanSplit_normal_cons]
                  have hd : ¬(c = '-' ∧ (c2 :: rest).head? = some '-') := by
                    rintro ⟨rfl, _⟩
                    rcases h4 with h | h <;> simp at h
                  have hs : ¬(c = '/' ∧ (c2 :: rest).head? = some '*') := by
                    rintro ⟨rfl, _⟩
                    rcases h4 with h | h <;> simp at h
                  rw [if_neg h1, if_neg hd, if_neg hs, if_pos h4]
                rw [hIH, hscan,
                  mapHead_append_consHead cur c _ (scanSplit_ne_nil (ScanCtx.inStr c) (c2 :: rest))]
              · have hIH := ih (c2 :: rest) hlen1 ScanCtx.normal strCh (cur ++ [c]) acc
                simp only [stOf] at hIH
                have hne : (c == ';') = false := by simpa using h1
                have hq1 : (c == '\'') = false := by
                  have : ¬(c = '\'') := fun h => h4 (Or.inl h)
                  simpa using this
                have hq2 : (c == '"') = false := by
                  have : ¬(c = '"') := fun h => h4 (Or.inr h)
                  simpa using this
                have hb2 : ((c == '-') && (some c2 == some '-')) = false := by
                  cases hd : (c == '-') with
                  | false => rfl
                  | true =>
                    have : c = '-' := by simpa using hd
                    subst this
                    cases he : (some c2 == some '-') with
                    | false => rfl
                    | true => exact absurd ⟨rfl, by simpa using he⟩ h2
                have hb3 : ((c == '/') && (some c2 == some '*')) = false := by
                  cases hd : (c == '/') with
                  | false => rfl
                  | true =>
                    have : c = '/' := by simpa using hd
                    subst this
                    cases he : (some c2 == some '*') with
                    | false => rfl
                    | true => exact absurd ⟨rfl, by simpa using he⟩ h3
                rw [splitRun_pair]
                simp only [splitStep, stOf, hne, hq1, hq2]
                simp only [Bool.true_and, Bool.not_false, hb2, hb3]
                simp only [Bool.and_false, Bool.false_and, Bool.or_self,
                  Bool.false_eq_true, if_false, Bool.false_or, Bool.or_false]
                have hscan : scanSplit ScanCtx.normal (c :: c2 :: rest)
                    = consHead c (scanSplit ScanCtx.normal (c2 :: rest)) := by
                  rw [scanSplit_normal_cons]
                  have hd : ¬(c = '-' ∧ (c2 :: rest).head? = some '-') := by
                    rintro ⟨rfl, hx⟩
                    exact h2 ⟨rfl, by simpa using hx⟩
                  have hs : ¬(c = '/' ∧ (c2 :: rest).head? = some '*') := by
                    rintro ⟨rfl, hx⟩
                    exact h3 ⟨rfl, by simpa using hx⟩
                  rw [if_neg h1, if_neg hd, if_neg hs, if_neg h4]
                rw [hIH, hscan,
                  mapHead_append_consHead cur c _ (scanSplit_ne_nil ScanCtx.normal (c2 :: rest))]
      | lineC =>
        by_cases h1 : c = '\n'
        · subst h1
          have hIH := ih (c2 :: rest) hlen1 ScanCtx.normal strCh (cur ++ ['\n']) acc
          simp only [stOf] at hIH
          rw [splitRun_pair]
          simp only [splitStep, stOf]
          simp only [show (('\n' : Char) == '-') = false from rfl,
            show (('\n' : Char) == '\n') = true from rfl]
          simp only [Bool.and_false, Bool.false_and, Bool.not_true, Bool.true_and,
            Bool.false_eq_true, if_false, if_true]
          have hscan : scanSplit ScanCtx.lineC ('\n' :: c2 :: rest)
              = consHead '\n' (scanSplit ScanCtx.normal (c2 :: rest)) := by
            rw [scanSplit_lineC_cons]
            simp
          rw [hIH, hscan,
            mapHead_append_consHead cur '\n' _ (scanSplit_ne_nil ScanCtx.normal (c2 :: rest))]
        · by_cases h2 : c = '-' ∧ c2 = '-'
          · obtain ⟨rfl, rfl⟩ := h2
            have hIH := ih ('-' :: rest) hlen1 ScanCtx.lineC strCh (cur ++ ['-']) acc
            simp only [stOf] at hIH
            rw [splitRun_pair]
            simp only [splitStep, stOf]
            simp only [show (('-' : Char) == '-') = true from rfl,
              show (some '-' == some '-') = true from rfl]
            simp only [Bool.and_true, Bool.true_and, Bool.not_false, Bool.false_eq_true,
              if_false, if_true]
            have hscan : scanSplit ScanCtx.lineC ('-' :: '-' :: rest)
                = consHead '-' (scanSplit ScanCtx.lineC ('-' :: rest)) := by
              rw [scanSplit_lineC_cons]
              simp
            rw [hIH, hscan,
              mapHead_append_consHead cur '-' _ (scanSplit_ne_nil ScanCtx.lineC ('-' :: rest))]
          · have hIH := ih (c2 :: rest) hlen1 ScanCtx.lineC strCh (cur ++ [c]) acc
            simp only [stOf] at hIH
            have hnl : (c == '\n') = false := by simpa using h1
            have hb1 : ((c == '-') && (some c2 == some '-')) = false := by
              cases hd : (c == '-') with
              | false => rfl
              | true =>
                have : c = '-' := by simpa using hd
                subst this
                cases he : (some c2 == some '-') with
                | false => rfl
                | true => exact absurd ⟨rfl, by simpa using he⟩ h2
            rw [splitRun_pair]
            simp only [splitStep, stOf, hnl]
            simp only [hb1, Bool.and_false, Bool.false_and, Bool.not_false, Bool.true_and,
              Bool.and_true, Bool.false_eq_true, if_false, if_true]
            have hscan : scanSplit ScanCtx.lineC (c :: c2 :: rest)
                = consHead c (scanSplit ScanCtx.lineC (c2 :: rest)) := by
              rw [scanSplit_lineC_cons, if_neg h1]
            rw [hIH, hscan,
              mapHead_append_consHead cur c _ (scanSplit_ne_nil ScanCtx.lineC (c2 :: rest))]
      | blockC =>
        by_cases h1 : c = '*' ∧ c2 = '/'
        · obtain ⟨rfl, rfl⟩ := h1
          have hIH := ih rest hlen2 ScanCtx.normal strCh (cur ++ ['*', '/']) acc
          simp only [stOf] at hIH
          rw [splitRun_pair]
          simp only [splitStep, stOf]
          simp only [show (('*' : Char) == '-') = false from rfl,
            show (('*' : Char) == '/') = false from rfl,
            show (('*' : Char) == '*') = true from rfl,
            show (some '/' == some '/') = true from rfl]
          simp only [Bool.and_false, Bool.false_and, Bool.and_true, Bool.true_and,
            Bool.not_false, Bool.not_true, Bool.false_eq_true, if_false, if_true]
          have hscan : scanSplit ScanCtx.blockC ('*' :: '/' :: rest)
              = consHead '*' (consHead '/' (scanSplit ScanCtx.normal rest)) := by
            rw [scanSplit_blockC_cons2]
            simp
          rw [hIH, hscan,
            mapHead_append_consHead cur '*' _
              (consHead_ne_nil '/' (scanSplit ScanCtx.normal rest)),
            mapHead_append_consHead (cur ++ ['*']) '/' _ (scanSplit_ne_nil ScanCtx.normal rest),
            show (cur ++ ['*']) ++ ['/'] = cur ++ ['*', '/'] by simp]
        · by_cases h2 : c = '/' ∧ c2 = '*'
          · obtain ⟨rfl, rfl⟩ := h2
            have hIH := ih ('*' :: rest) hlen1 ScanCtx.blockC strCh (cur ++ ['/']) acc
            simp only [stOf] at hIH
            rw [splitRun_pair]
            simp only [splitStep, stOf]
            simp only [show (('/' : Char) == '-') = false from rfl,
              show (('/' : Char) == '/') = true from rfl,
              show (some '*' == some '*') = true from rfl]
            simp only [Bool.and_false, Bool.false_and, Bool.and_true, Bool.true_and,
              Bool.not_false, Bool.not_true, Bool.false_eq_true, if_false, if_true]
            have hscan : scanSplit ScanCtx.blockC ('/' :: '*' :: rest)
                = consHead '/' (scanSplit ScanCtx.blockC ('*' :: rest)) := by
              rw [scanSplit_blockC_cons2]
              simp
            rw [hIH, hscan,
              mapHead_append_consHead cur '/' _ (scanSplit_ne_nil ScanCtx.blockC ('*' :: rest))]
          · have hIH := ih (c2 :: rest) hlen1 ScanCtx.blockC strCh (cur ++ [c]) acc
            simp only [stOf] at hIH
            have hb3 : ((c == '/') && (some c2 == some '*')) = false := by
              cases hd : (c == '/') with
              | false => rfl
              | true =>
                have : c = '/' := by simpa using hd
                subst this
                cases he : (some c2 == some '*') with
                | false => rfl
                | true => exact absurd ⟨rfl, by simpa using he⟩ h2
            have hb4 : ((c == '*') && (some c2 == some '/')) = false := by
              cases hd : (c == '*') with
              | false => rfl
              | true =>
                have : c = '*' := by simpa using hd
                subst this
                cases he : (some c2 == some '/') with
                | false => rfl
                | true => exact absurd ⟨rfl, by simpa using he⟩ h1
            rw [splitRun_pair]
            simp only [splitStep, stOf]
            simp only [Bool.not_false, Bool.not_true, Bool.true_and, Bool.false_and,
              Bool.and_false, hb3, hb4]
            simp only [Bool.and_false, Bool.false_and, Bool.false_eq_true, if_false, if_true]
            have hscan : scanSplit ScanCtx.blockC (c :: c2 :: rest)
                = consHead c (scanSplit ScanCtx.blockC (c2 :: rest)) := by
              rw [scanSplit_blockC_cons2, if_neg h1]
            rw [hIH, hscan,
              mapHead_append_consHead cur c _ (scanSplit_ne_nil ScanCtx.blockC (c2 :: rest))]
      | inStr q =>
        by_cases h1 : c = q
        · have hcq : (c == q) = true := by simpa using h1
          by_cases h2 : c2 = q
          · have hc2q : (some c2 == some q) = true := by simpa using h2
            have hIH := ih rest hlen2 (ScanCtx.inStr q) strCh (cur ++ [c, q]) acc
            simp only [stOf] at hIH
            rw [splitRun_pair]
            simp only [splitStep, stOf, hcq, hc2q]
            simp only [Bool.not_true, Bool.false_and, Bool.and_false,
              Bool.false_eq_true, if_false, if_true, Bool.true_and]
            have hscan : scanSplit (ScanCtx.inStr q) (c :: c2 :: rest)
                = consHead c (consHead c2 (scanSplit (ScanCtx.inStr q) rest)) := by
              rw [scanSplit_inStr_cons2, if_pos h1, if_pos h2]
            rw [hIH, hscan,
              mapHead_append_consHead cur c _
                (consHead_ne_nil c2 (scanSplit (ScanCtx.inStr q) rest)),
              mapHead_append_consHead (cur ++ [c]) c2 _
                (scanSplit_ne_nil (ScanCtx.inStr q) rest),
              show (cur ++ [c]) ++ [c2] = cur ++ [c, q] by rw [h2]; simp]
          · have hc2q : (some c2 == some q) = false := by simpa using h2
            have hIH := ih (c2 :: rest) hlen1 ScanCtx.normal q (cur ++ [c]) acc
            simp only [stOf] at hIH
            rw [splitRun_pair]
            simp only [splitStep, stOf, hcq, hc2q]
            simp only [Bool.not_true, Bool.false_and, Bool.and_false,
              Bool.false_eq_true, if_false, if_true, Bool.true_and]
            have hscan : scanSplit (ScanCtx.inStr q) (c :: c2 :: rest)
                = consHead c (scanSplit ScanCtx.normal (c2 :: rest)) := by
              rw [scanSplit_inStr_cons2, if_pos h1, if_neg h2]
            rw [hIH, hscan,
              mapHead_append_consHead cur c _ (scanSplit_ne_nil ScanCtx.normal (c2 :: rest))]
        · have hIH := ih (c2 :: rest) hlen1 (ScanCtx.inStr q) strCh (cur ++ [c]) acc
          simp only [stOf] at hIH
          have hcq : (c == q) = false := by simpa using h1
          rw [splitRun_pair]
          simp only [splitStep, stOf, hcq]
          simp only [Bool.and_false, Bool.false_and, Bool.not_true, Bool.true_and,
            Bool.and_true, Bool.false_eq_true, if_false, if_true]
          have hscan : scanSplit (ScanCtx.inStr q) (c :: c2 :: rest)
              = consHead c (scanSplit (ScanCtx.inStr q) (c2 :: rest)) := by
            rw [scanSplit_inStr_cons2, if_neg h1]
          rw [hIH, hscan,
            mapHead_append_consHead cur c _ (scanSplit_ne_nil (ScanCtx.inStr q) (c2 :: rest))]

/--
Claim C4: `splitSqlStatements` equals the context-aware specification
splitter followed by the non-whitespace filter.  The specification splitter
(`scanSplit`) cuts exactly at semicolons scanned in Normal context, so a
semicolon inside a single-quoted string, a double-quoted identifier, a line
comment, or a block comment is ordinary text and never a statement boundary;
the filter drops the whitespace-only segments between boundary semicolons and
keeps a trailing unterminated segment iff it contains non-whitespace.  The
spec's concrete example and one instance per protected context are also
checked.
-/
theorem split_respects_contexts :
    (∀ text : List Char,
      splitSqlStatements text = (scanSplit ScanCtx.normal text).filter keepStmt) ∧
    splitSqlStatements "INSERT INTO t(x) VALUES (';')".data
      = ["INSERT INTO t(x) VALUES (';')".data] ∧
    splitSqlStatements "x -- c;\ny".data = ["x -- c;\ny".data] ∧
    splitSqlStatements "/* ; */ x".data = ["/* ; */ x".data] ∧
    splitSqlStatements "a \"q;\" b".data = ["a \"q;\" b".data] ∧
    splitSqlStatements "a;;  ;b".data = ["a".data, "b".data] ∧
    splitSqlStatements "a;   ".data = ["a".data] := by
  refine ⟨?_, by decide, by decide, by decide, by decide, by decide, by decide⟩
  intro text
  unfold splitSqlStatements
  have h := splitRun_scan text.length text (le_refl _) ScanCtx.normal ' ' [] []
  simp only [stOf] at h
  rw [h, mapHead_nil_append]
  simp

end PgClient

/-
## Data modification service (src/src/services/dataModificationService.ts)

JavaScript values are modelled by `JsValue`: numbers as `Int`, plain objects
by the string `JSON.stringify` renders them to.  The external builtins
`JSON.parse` and `Number` are parameters of the embedding (`JsEnv`), since
their behaviour is not defined by this repository.  `Record<string, unknown>`
objects are association lists in property-insertion order; reading an absent
property yields `undefined`.  `Array.prototype.sort` (ES2019: stable) is
modelled by the stable `List.insertionSort` on the source comparator, and
`connection.pool.query` by a call-indexed function returning either an error
message or an optional `rowCount`.
-/

namespace PgClient

inductive JsValue where
  | null
  | undefined
  | bool (b : Bool)
  | num (n : Int)
  | str (s : String)
  | obj (json : String)
deriving DecidableEq

structure ColumnInfo where
  name : String
  dataType : String
  dataTypeId : Int
deriving DecidableEq

structure JsEnv where
  jsonParse : String → Option JsValue
  numberParse : String → Option Int

def jsToLower (s : String) : String :=
  String.mk (s.data.map Char.toLower)

def jsGet (m : List (String × JsValue)) (k : String) : JsValue :=
  match m.find? (fun p => p.1 == k) with
  | some p => p.2
  | none => JsValue.undefined

def numericTypes : List String :=
  ["integer", "bigint", "smallint", "real", "double precision", "numeric", "decimal"]

def isNumericCol : Option ColumnInfo → Bool
  | some c => numericTypes.contains c.dataType
  | none => false

def convertValue (env : JsEnv) (value : JsValue) (column : Option ColumnInfo) : JsValue :=
  if value = JsValue.null ∨ value = JsValue.undefined ∨ value = JsValue.str "" then
    JsValue.null
  else
    match value with
    | JsValue.str s =>
      if column.map ColumnInfo.dataType = some "json" ∨
         column.map ColumnInfo.dataType = some "jsonb" then
        match env.jsonParse s with
        | some v => v
        | none => JsValue.str s
      else if column.map ColumnInfo.dataType = some "boolean" ∧ jsToLower s = "true" then
        JsValue.bool true
      else if column.map ColumnInfo.dataType = some "boolean" ∧ jsToLower s = "false" then
        JsValue.bool false
      else if isNumericCol column then
        match env.numberParse s with
        | some nv => JsValue.num nv
        | none => JsValue.str s
      else JsValue.str s
    | v => v

def escGo : List Char → List Char
  | [] => []
  | c :: rest => if c = '\'' then '\'' :: '\'' :: escGo rest else c :: escGo rest

def escapeQuotes (s : String) : String :=
  String.mk (escGo s.data)

def formatValueForSql : JsValue → String
  | JsValue.null => "NULL"
  | JsValue.undefined => "NULL"
  | JsValue.bool b => if b then "TRUE" else "FALSE"
  | JsValue.num n => Int.repr n
  | JsValue.obj json => "'" ++ escapeQuotes json ++ "'"
  | JsValue.str s => "'" ++ escapeQuotes s ++ "'"

def digitsGo : Nat → Nat → List Char → List Char
  | 0, _, acc => acc
  | fuel + 1, n, acc =>
    if n = 0 then acc else digitsGo fuel (n / 10) (Char.ofNat (48 + n % 10) :: acc)

def digitsOf (n : Nat) : List Char :=
  if n = 0 then ['0'] else digitsGo (n + 1) n []

def natStr (n : Nat) : String :=
  String.mk (digitsOf n)

def dropExact : List Char → List Char → Option (List Char)
  | [], cs => some cs
  | _ :: _, [] => none
  | p :: ps, c :: cs => if c = p then dropExact ps cs else none

def procRepl (matched pre post : List Char) : List Char → List Char
  | [] => []
  | [c] => [c]
  | c :: c2 :: rest =>
    if c = '$' then
      if c2 = '$' then '$' :: procRepl matched pre post rest
      else if c2 = '&' then matched ++ procRepl matched pre post rest
      else if c2 = Char.ofNat 96 then pre ++ procRepl matched pre post rest
      else if c2 = '\'' then post ++ procRepl matched pre post rest
      else c :: procRepl matched pre post (c2 :: rest)
    else c :: procRepl matched pre post (c2 :: rest)

def boundaryOk : List Char → Bool
  | [] => true
  | d :: _ => !isWordChar d

def replGo (digits repl : List Char) : Nat → List Char → List Char → List Char
  | 0, _, cs => cs
  | _ + 1, _, [] => []
  | fuel + 1, revPre, c :: cs =>
    if c = '$' then
      match dropExact digits cs with
      | some rest2 =>
        if boundaryOk rest2 then
          procRepl ('$' :: digits) revPre.reverse rest2 repl ++
            replGo digits repl fuel (('$' :: digits).reverse ++ revPre) rest2
        else c :: replGo digits repl fuel (c :: revPre) cs
      | none => c :: replGo digits repl fuel (c :: revPre) cs
    else c :: replGo digits repl fuel (c :: revPre) cs

def jsReplaceAll (digits repl subject : List Char) : List Char :=
  replGo digits repl subject.length [] subject

def fmtLoop (params : List JsValue) : Nat → List Char → List Char
  | 0, acc => acc
  | i + 1, acc =>
    fmtLoop params i
      (jsReplaceAll (digitsOf (i + 1))
        (formatValueForSql (params.getD i JsValue.undefined)).data acc)

def formatSqlWithParams (sql : String) (params : List JsValue) : String :=
  String.mk (fmtLoop params params.length sql.data)

end PgClient

namespace PgClient

/-
SQL builders.  `setFold` threads the mutable `paramIndex` of `buildUpdateSql`
through the SET-clause map; `whereFold` is the primary-key WHERE-clause map
shared verbatim by `buildUpdateSql` and `buildDeleteSql` (a null or undefined
key value emits `"col" IS NULL` and pushes no parameter); `insertFold` walks
`Object.entries(newData)` skipping `undefined` and `''` values.
-/

structure SqlAndParams where
  sql : String
  params : List JsValue
deriving DecidableEq

def setFold (env : JsEnv) (newData : List (String × JsValue)) (columns : List ColumnInfo) :
    List String → Nat → List String × List JsValue × Nat
  | [], idx => ([], [], idx)
  | col :: rest, idx =>
    let v := convertValue env (jsGet newData col) (columns.find? fun c => c.name == col)
    let r := setFold env newData columns rest (idx + 1)
    (("\"" ++ col ++ "\" = $" ++ natStr idx) :: r.1, v :: r.2.1, r.2.2)

def whereFold (env : JsEnv) (originalData : List (String × JsValue)) (columns : List ColumnInfo) :
    List String → Nat → List String × List JsValue × Nat
  | [], idx => ([], [], idx)
  | col :: rest, idx =>
    let value := jsGet originalData col
    if value = JsValue.null ∨ value = JsValue.undefined then
      let r := whereFold env originalData columns rest idx
      (("\"" ++ col ++ "\" IS NULL") :: r.1, r.2.1, r.2.2)
    else
      let v := convertValue env value (columns.find? fun c => c.name == col)
      let r := whereFold env originalData columns rest (idx + 1)
      (("\"" ++ col ++ "\" = $" ++ natStr idx) :: r.1, v :: r.2.1, r.2.2)

def insertFold (env : JsEnv) (columns : List ColumnInfo) :
    List (String × JsValue) → Nat → List String × List JsValue × List String
  | [], _ => ([], [], [])
  | (key, value) :: rest, idx =>
    if value = JsValue.undefined ∨ value = JsValue.str "" then
      insertFold env columns rest idx
    else
      let v := convertValue env value (columns.find? fun c => c.name == key)
      let r := insertFold env columns rest (idx + 1)
      (("\"" ++ key ++ "\"") :: r.1, v :: r.2.1, ("$" ++ natStr idx) :: r.2.2)

def buildUpdateSql (env : JsEnv) (tableName : String)
    (originalData newData : List (String × JsValue)) (modifiedColumns : List String)
    (primaryKeyColumns : List String) (columns : List ColumnInfo) : SqlAndParams :=
  let s := setFold env newData columns modifiedColumns 1
  let w := whereFold env originalData columns primaryKeyColumns s.2.2
  { sql := "UPDATE " ++ tableName ++ " SET " ++ String.intercalate ", " s.1 ++
           " WHERE " ++ String.intercalate " AND " w.1
    params := s.2.1 ++ w.2.1 }

def buildInsertSql (env : JsEnv) (tableName : String)
    (newData : List (String × JsValue)) (columns : List ColumnInfo) : SqlAndParams :=
  let r := insertFold env columns newData 1
  { sql := "INSERT INTO " ++ tableName ++ " (" ++ String.intercalate ", " r.1 ++
           ") VALUES (" ++ String.intercalate ", " r.2.2 ++ ")"
    params := r.2.1 }

def buildDeleteSql (env : JsEnv) (tableName : String)
    (originalData : List (String × JsValue)) (primaryKeyColumns : List String)
    (columns : List ColumnInfo) : SqlAndParams :=
  let w := whereFold env originalData columns primaryKeyColumns 1
  { sql := "DELETE FROM " ++ tableName ++ " WHERE " ++ String.intercalate " AND " w.1
    params := w.2.1 }

inductive ChangeType where
  | update
  | insert
  | delete
deriving DecidableEq

def typeStr : ChangeType → String
  | ChangeType.update => "update"
  | ChangeType.insert => "insert"
  | ChangeType.delete => "delete"

structure RowChange where
  type : ChangeType
  rowIndex : Int
  originalData : List (String × JsValue) := []
  newData : List (String × JsValue) := []
  modifiedColumns : List String := []

def typeOrder : ChangeType → Int
  | ChangeType.delete => 0
  | ChangeType.update => 1
  | ChangeType.insert => 2

def jsCompare (a b : RowChange) : Int :=
  if typeOrder a.type ≠ typeOrder b.type then typeOrder a.type - typeOrder b.type
  else if a.type = ChangeType.delete then b.rowIndex - a.rowIndex
  else a.rowIndex - b.rowIndex

def changeLE (a b : RowChange) : Prop :=
  jsCompare a b ≤ 0

instance : DecidableRel changeLE :=
  fun a b => inferInstanceAs (Decidable (jsCompare a b ≤ 0))

structure ModificationResult where
  success : Bool
  affectedRows : Int
  errors : List String
  executedSql : List String
deriving DecidableEq

def buildFor (env : JsEnv) (tableName : String) (primaryKeyColumns : List String)
    (columns : List ColumnInfo) (change : RowChange) : SqlAndParams :=
  match change.type with
  | ChangeType.update =>
    buildUpdateSql env tableName change.originalData change.newData
      change.modifiedColumns primaryKeyColumns columns
  | ChangeType.insert => buildInsertSql env tableName change.newData columns
  | ChangeType.delete =>
    buildDeleteSql env tableName change.originalData primaryKeyColumns columns

def applyLoop (env : JsEnv) (query : Nat → String → List JsValue → Except String (Option Int))
    (tableName : String) (primaryKeyColumns : List String) (columns : List ColumnInfo) :
    List RowChange → Nat → ModificationResult → ModificationResult
  | [], _, res => res
  | change :: rest, k, res =>
    let sp := buildFor env tableName primaryKeyColumns columns change
    let auditSql := formatSqlWithParams sp.sql sp.params
    match query k sp.sql sp.params with
    | Except.ok rc =>
      applyLoop env query tableName primaryKeyColumns columns rest (k + 1)
        { res with
          executedSql := res.executedSql ++ [auditSql]
          affectedRows := res.affectedRows + rc.getD 0 }
    | Except.error msg =>
      applyLoop env query tableName primaryKeyColumns columns rest (k + 1)
        { res with
          success := false
          executedSql := res.executedSql ++ [auditSql]
          errors := res.errors ++
            [typeStr change.type ++ " row " ++ Int.repr change.rowIndex ++ ": " ++ msg] }

def sortChanges (changes : List RowChange) : List RowChange :=
  List.insertionSort changeLE changes

def applyChanges (env : JsEnv)
    (conn : Option (Nat → String → List JsValue → Except String (Option Int)))
    (changes : List RowChange) (columns : List ColumnInfo) (tableName : String)
    (primaryKeyColumns : List String) : ModificationResult :=
  match conn with
  | none => ⟨false, 0, ["No active database connection"], []⟩
  | some query =>
    if primaryKeyColumns.length = 0 then
      ⟨false, 0, ["Cannot modify data without primary key columns defined"], []⟩
    else
      applyLoop env query tableName primaryKeyColumns columns
        (sortChanges changes) 0 ⟨true, 0, [], []⟩

end PgClient

namespace PgClient

def trivEnv : JsEnv :=
  ⟨fun _ => none, fun _ => none⟩

/--
Claim C7: calling the reconciler with an available connection but an empty
`primaryKeyColumns` list returns the immediate failure result — success is
false, affectedRows is 0, the error list is exactly
["Cannot modify data without primary key columns defined"], and executedSql is
empty — for every environment, query function, change list, column list and
table name, so no statement is ever attempted.
-/
theorem applyChanges_empty_pk_fails (env : JsEnv)
    (query : Nat → String → List JsValue → Except String (Option Int))
    (changes : List RowChange) (columns : List ColumnInfo) (tableName : String) :
    applyChanges env (some query) changes columns tableName [] =
      ⟨false, 0, ["Cannot modify data without primary key columns defined"], []⟩ := rfl

/--
Claim C9: `convertValue` (coerceForBind) sends the empty string, null and
undefined to null for every column type; on a boolean-typed column it sends a
string whose lower-casing is "true"/"false" to the corresponding boolean and
leaves every other non-empty string unchanged; on a text-typed column it
leaves every non-empty string unchanged; and the spec's three concrete
examples hold.
-/
theorem coerceForBind_coercions (env : JsEnv) (nm : String) (tid : Int) (s : String)
    (col : Option ColumnInfo) :
    convertValue env (JsValue.str "") col = JsValue.null ∧
    convertValue env JsValue.null col = JsValue.null ∧
    convertValue env JsValue.undefined col = JsValue.null ∧
    (jsToLower s = "true" →
      convertValue env (JsValue.str s) (some ⟨nm, "boolean", tid⟩) = JsValue.bool true) ∧
    (jsToLower s = "false" →
      convertValue env (JsValue.str s) (some ⟨nm, "boolean", tid⟩) = JsValue.bool false) ∧
    (s ≠ "" → jsToLower s ≠ "true" → jsToLower s ≠ "false" →
      convertValue env (JsValue.str s) (some ⟨nm, "boolean", tid⟩) = JsValue.str s) ∧
    (s ≠ "" →
      convertValue env (JsValue.str s) (some ⟨nm, "text", tid⟩) = JsValue.str s) ∧
    convertValue env (JsValue.str "true") (some ⟨nm, "boolean", tid⟩) = JsValue.bool true ∧
    convertValue env (JsValue.str "not-a-bool") (some ⟨nm, "boolean", tid⟩) =
      JsValue.str "not-a-bool" ∧
    convertValue env (JsValue.str "") (some ⟨nm, "text", tid⟩) = JsValue.null := by
  have e1 : ("boolean" : String) ≠ "json" := by decide
  have e2 : ("boolean" : String) ≠ "jsonb" := by decide
  have e3 : ("false" : String) ≠ "true" := by decide
  have e4 : isNumericCol (some (⟨nm, "boolean", tid⟩ : ColumnInfo)) = false := rfl
  have e5 : ("text" : String) ≠ "json" := by decide
  have e6 : ("text" : String) ≠ "jsonb" := by decide
  have e7 : ("text" : String) ≠ "boolean" := by decide
  have e8 : isNumericCol (some (⟨nm, "text", tid⟩ : ColumnInfo)) = false := rfl
  refine ⟨by simp [convertValue], by simp [convertValue], by simp [convertValue],
    ?_, ?_, ?_, ?_, rfl, rfl, rfl⟩
  · intro h
    have hs : s ≠ "" := by
      intro he
      rw [he] at h
      exact absurd h (by decide)
    simp [convertValue, hs, h, e1, e2]
  · intro h
    have hs : s ≠ "" := by
      intro he
      rw [he] at h
      exact absurd h (by decide)
    simp [convertValue, hs, h, e1, e2, e3]
  · intro hs h1 h2
    simp [convertValue, hs, h1, h2, e1, e2, e4]
  · intro hs
    simp [convertValue, hs, e5, e6, e7, e8]

/--
Witness for C9 at concrete inputs: a boolean column coerces "TRUE" to the
boolean true and leaves "oFF" unchanged, and a text column passes "abc"
through unchanged.
-/
theorem coerceForBind_coercions_witness :
    convertValue trivEnv (JsValue.str "TRUE") (some ⟨"c", "boolean", 16⟩) = JsValue.bool true ∧
    convertValue trivEnv (JsValue.str "oFF") (some ⟨"c", "boolean", 16⟩) = JsValue.str "oFF" ∧
    convertValue trivEnv (JsValue.str "abc") (some ⟨"c", "text", 25⟩) = JsValue.str "abc" :=
  ⟨(coerceForBind_coercions trivEnv "c" 16 "TRUE" none).2.2.2.1 (by decide),
   (coerceForBind_coercions trivEnv "c" 16 "oFF" none).2.2.2.2.2.1 (by decide) (by decide)
     (by decide),
   (coerceForBind_coercions trivEnv "c" 25 "abc" none).2.2.2.2.2.2.1 (by decide)⟩

end PgClient

namespace PgClient

/-
Specification-side observables for the reconciler loop, written from the
spec's wording: the outcome of the k-th attempted change, the error entries
of the failing changes, and the accumulated affected-row count of the
successful ones.
-/

def outcomeOf (env : JsEnv) (query : Nat → String → List JsValue → Except String (Option Int))
    (tableName : String) (pk : List String) (columns : List ColumnInfo)
    (k : Nat) (c : RowChange) : Except String (Option Int) :=
  query k (buildFor env tableName pk columns c).sql (buildFor env tableName pk columns c).params

def specErrors (env : JsEnv) (query : Nat → String → List JsValue → Except String (Option Int))
    (tableName : String) (pk : List String) (columns : List ColumnInfo) :
    List RowChange → Nat → List String
  | [], _ => []
  | c :: rest, k =>
    match outcomeOf env query tableName pk columns k c with
    | Except.ok _ => specErrors env query tableName pk columns rest (k + 1)
    | Except.error msg =>
      (typeStr c.type ++ " row " ++ Int.repr c.rowIndex ++ ": " ++ msg)
        :: specErrors env query tableName pk columns rest (k + 1)

def specAffected (env : JsEnv) (query : Nat → String → List JsValue → Except String (Option Int))
    (tableName : String) (pk : List String) (columns : List ColumnInfo) :
    List RowChange → Nat → Int
  | [], _ => 0
  | c :: rest, k =>
    (match outcomeOf env query tableName pk columns k c with
     | Except.ok rc => rc.getD 0
     | Except.error _ => 0) + specAffected env query tableName pk columns rest (k + 1)

lemma applyLoop_charac (env : JsEnv)
    (query : Nat → String → List JsValue → Except String (Option Int))
    (tableName : String) (pk : List String) (columns : List ColumnInfo) :
    ∀ (cs : List RowChange) (k : Nat) (res : ModificationResult),
      applyLoop env query tableName pk columns cs k res =
        ⟨res.success && (specErrors env query tableName pk columns cs k).isEmpty,
         res.affectedRows + specAffected env query tableName pk columns cs k,
         res.errors ++ specErrors env query tableName pk columns cs k,
         res.executedSql ++ cs.map (fun c =>
           formatSqlWithParams (buildFor env tableName pk columns c).sql
             (buildFor env tableName pk columns c).params)⟩ := by
  intro cs
  induction cs with
  | nil =>
    intro k res
    simp [applyLoop, specErrors, specAffected]
  | cons c rest ih =>
    intro k res
    simp only [applyLoop]
    cases hq : query k (buildFor env tableName pk columns c).sql
        (buildFor env tableName pk columns c).params with
    | ok rc =>
      simp only [specErrors, specAffected, outcomeOf, hq, List.map]
      rw [ih]
      simp [List.append_assoc, add_assoc]
    | error msg =>
      simp only [specErrors, specAffected, outcomeOf, hq, List.map]
      rw [ih]
      simp [List.append_assoc, add_assoc]

end PgClient

namespace PgClient

/--
Claim C8: with a connection and a non-empty primary key, the reconciler is
best-effort per row: its error list is exactly one entry per failing change
(carrying the change's type, row index and the driver message), every change
is attempted (one executedSql entry per supplied change), affectedRows is the
sum of the reported affected-row counts of the successful changes, and
success is true iff no change produced an error.
-/
theorem applyChanges_best_effort (env : JsEnv)
    (query : Nat → String → List JsValue → Except String (Option Int))
    (changes : List RowChange) (columns : List ColumnInfo) (tableName : String)
    (pk0 : String) (pkRest : List String) :
    (applyChanges env (some query) changes columns tableName (pk0 :: pkRest)).errors =
      specErrors env query tableName (pk0 :: pkRest) columns (sortChanges changes) 0 ∧
    (applyChanges env (some query) changes columns tableName (pk0 :: pkRest)).executedSql =
      (sortChanges changes).map (fun c =>
        formatSqlWithParams (buildFor env tableName (pk0 :: pkRest) columns c).sql
          (buildFor env tableName (pk0 :: pkRest) columns c).params) ∧
    (applyChanges env (some query) changes columns tableName (pk0 :: pkRest)).executedSql.length =
      changes.length ∧
    (applyChanges env (some query) changes columns tableName (pk0 :: pkRest)).affectedRows =
      specAffected env query tableName (pk0 :: pkRest) columns (sortChanges changes) 0 ∧
    ((applyChanges env (some query) changes columns tableName (pk0 :: pkRest)).success = true ↔
      (applyChanges env (some query) changes columns tableName (pk0 :: pkRest)).errors = []) := by
  have hlen : (sortChanges changes).length = changes.length :=
    (List.perm_insertionSort changeLE changes).length_eq
  have h := applyLoop_charac env query tableName (pk0 :: pkRest) columns
    (sortChanges changes) 0 ⟨true, 0, [], []⟩
  have happ : applyChanges env (some query) changes columns tableName (pk0 :: pkRest) =
      applyLoop env query tableName (pk0 :: pkRest) columns (sortChanges changes) 0
        ⟨true, 0, [], []⟩ := rfl
  rw [happ, h]
  refine ⟨by simp, by simp, ?_, by simp, ?_⟩
  · simp [hlen]
  · simp [List.isEmpty_iff]

end PgClient

namespace PgClient

instance : IsTotal RowChange changeLE where
  total a b := by
    cases ha : a.type <;> cases hb : b.type <;>
      simp [changeLE, jsCompare, typeOrder, ha, hb] <;> omega

instance : IsTrans RowChange changeLE where
  trans a b c hab hbc := by
    unfold changeLE jsCompare at hab hbc ⊢
    cases ha : a.type <;> cases hb : b.type <;> cases hc : c.type <;>
      simp [typeOrder, ha, hb, hc] at hab hbc ⊢ <;> omega

/-
Claim-side ordering discipline for C2, taken from the spec's wording:
deletes strictly before updates strictly before inserts; within deletes
descending row index; within updates and inserts ascending row index.
-/
def claimOrder (a b : RowChange) : Prop :=
  typeOrder a.type < typeOrder b.type ∨
  (a.type = b.type ∧ a.type = ChangeType.delete ∧ b.rowIndex ≤ a.rowIndex) ∨
  (a.type = b.type ∧ a.type ≠ ChangeType.delete ∧ a.rowIndex ≤ b.rowIndex)

lemma changeLE_imp_claimOrder (a b : RowChange) (h : changeLE a b) : claimOrder a b := by
  unfold changeLE jsCompare at h
  unfold claimOrder
  cases ha : a.type <;> cases hb : b.type <;>
    simp [typeOrder, ha, hb] at h ⊢ <;> omega

def okQuery : Nat → String → List JsValue → Except String (Option Int) :=
  fun _ _ _ => Except.ok (some 1)

def insA : RowChange :=
  { type := ChangeType.insert, rowIndex := 5, newData := [("a", JsValue.num 5)] }

def insB : RowChange :=
  { type := ChangeType.insert, rowIndex := 3, newData := [("a", JsValue.num 3)] }

/--
Counterexample to C2 as stated: two insert changes supplied with row indices
5 then 3 are executed in ascending row-index order (3 first), not "in the
order they were supplied" — the reconciler's comparator sorts inserts by
ascending row index.
-/
theorem applyChanges_cex_insert_order :
    (applyChanges trivEnv (some okQuery) [insA, insB] [] "t" ["id"]).executedSql =
      ["INSERT INTO t (\"a\") VALUES (3)", "INSERT INTO t (\"a\") VALUES (5)"] ∧
    (applyChanges trivEnv (some okQuery) [insA, insB] [] "t" ["id"]).executedSql ≠
      ["INSERT INTO t (\"a\") VALUES (5)", "INSERT INTO t (\"a\") VALUES (3)"] := by
  exact ⟨by decide, by decide⟩

/--
Claim C2 (amended): with a connection and a non-empty primary key the
reconciler executes the changes in the order of its stable sort, which is a
permutation of the supplied changes pairwise respecting the discipline:
deletes first in descending row-index order, then updates in ascending
row-index order, then inserts in ascending row-index order (not the order
supplied); the executed statements are exactly the formatted statements of
that sorted list.
-/
theorem applyChanges_order_amended (env : JsEnv)
    (query : Nat → String → List JsValue → Except String (Option Int))
    (changes : List RowChange) (columns : List ColumnInfo) (tableName : String)
    (pk0 : String) (pkRest : List String) :
    (sortChanges changes).Perm changes ∧
    List.Pairwise claimOrder (sortChanges changes) ∧
    (applyChanges env (some query) changes columns tableName (pk0 :: pkRest)).executedSql =
      (sortChanges changes).map (fun c =>
        formatSqlWithParams (buildFor env tableName (pk0 :: pkRest) columns c).sql
          (buildFor env tableName (pk0 :: pkRest) columns c).params) := by
  refine ⟨List.perm_insertionSort changeLE changes, ?_, ?_⟩
  · exact (List.sorted_insertionSort changeLE changes).imp
      (fun h => changeLE_imp_claimOrder _ _ h)
  · have h := applyLoop_charac env query tableName (pk0 :: pkRest) columns
      (sortChanges changes) 0 ⟨true, 0, [], []⟩
    have happ : applyChanges env (some query) changes columns tableName (pk0 :: pkRest) =
        applyLoop env query tableName (pk0 :: pkRest) columns (sortChanges changes) 0
          ⟨true, 0, [], []⟩ := rfl
    rw [happ, h]
    simp

end PgClient

namespace PgClient

/-
Decimal-digit facts for the `\$i\b` placeholder scanner.  `vd` is the value
of a digit string, used to prove `digitsOf` injective.
-/

def vd (ds : List Char) : Nat :=
  ds.foldl (fun a c => 10 * a + (c.toNat - 48)) 0

lemma digit_char_val (m : Nat) (h : m < 10) :
    (Char.ofNat (48 + m)).toNat = 48 + m := by
  interval_cases m <;> decide

lemma digit_char_word (m : Nat) (h : m < 10) :
    isWordChar (Char.ofNat (48 + m)) = true := by
  interval_cases m <;> decide

lemma digitsGo_acc : ∀ (fuel n : Nat) (acc : List Char),
    digitsGo fuel n acc = digitsGo fuel n [] ++ acc := by
  intro fuel
  induction fuel with
  | zero =>
    intro n acc
    simp [digitsGo]
  | succ f ih =>
    intro n acc
    by_cases hn : n = 0
    · simp [digitsGo, hn]
    · simp only [digitsGo, if_neg hn]
      rw [ih (n / 10) (Char.ofNat (48 + n % 10) :: acc),
        ih (n / 10) [Char.ofNat (48 + n % 10)]]
      simp

lemma vd_append_singleton (pre : List Char) (c : Char) :
    vd (pre ++ [c]) = 10 * vd pre + (c.toNat - 48) := by
  unfold vd
  rw [List.foldl_append]
  simp

lemma digitsGo_vd : ∀ (fuel n : Nat), n < fuel → vd (digitsGo fuel n []) = n := by
  intro fuel
  induction fuel with
  | zero =>
    intro n hn
    omega
  | succ f ih =>
    intro n hn
    by_cases hn0 : n = 0
    · simp [digitsGo, hn0, vd]
    · have hrec : n / 10 < f := by
        have := Nat.div_lt_self (Nat.pos_of_ne_zero hn0) (by omega : (1 : Nat) < 10)
        omega
      have h10 : n % 10 < 10 := Nat.mod_lt _ (by omega)
      simp only [digitsGo, if_neg hn0]
      rw [digitsGo_acc, vd_append_singleton, ih (n / 10) hrec, digit_char_val _ h10]
      omega

lemma vd_digitsOf (n : Nat) : vd (digitsOf n) = n := by
  by_cases hn : n = 0
  · rw [hn]
    decide
  · simp only [digitsOf, if_neg hn]
    exact digitsGo_vd (n + 1) n (by omega)

lemma digitsOf_inj (m n : Nat) (h : digitsOf m = digitsOf n) : m = n := by
  have hv := congrArg vd h
  rwa [vd_digitsOf, vd_digitsOf] at hv

lemma digitsGo_all_word : ∀ (fuel n : Nat) (acc : List Char),
    (∀ c ∈ acc, isWordChar c = true) → ∀ c ∈ digitsGo fuel n acc, isWordChar c = true := by
  intro fuel
  induction fuel with
  | zero =>
    intro n acc hacc
    simpa [digitsGo] using hacc
  | succ f ih =>
    intro n acc hacc
    by_cases hn : n = 0
    · simpa [digitsGo, hn] using hacc
    · simp only [digitsGo, if_neg hn]
      apply ih
      intro c hc
      rcases List.mem_cons.mp hc with h | h
      · rw [h]
        exact digit_char_word _ (Nat.mod_lt _ (by omega))
      · exact hacc c h

lemma digitsOf_all_word (n : Nat) : ∀ c ∈ digitsOf n, isWordChar c = true := by
  by_cases hn : n = 0
  · rw [hn]
    intro c hc
    rcases List.mem_cons.mp hc with h | h
    · rw [h]
      decide
    · exact absurd h (List.not_mem_nil c)
  · simp only [digitsOf, if_neg hn]
    exact digitsGo_all_word (n + 1) n [] (by simp)

lemma digitsOf_ne_nil (n : Nat) : digitsOf n ≠ [] := by
  intro h
  have h0 : n = 0 := by
    have hv := congrArg vd h
    rw [vd_digitsOf] at hv
    simpa [vd] using hv
  rw [h0] at h
  exact absurd h (by decide)

lemma dollar_not_digitsOf (n : Nat) : '$' ∉ digitsOf n := by
  intro h
  have hw := digitsOf_all_word n '$' h
  exact absurd hw (by decide)

lemma dropExact_append : ∀ (p rest : List Char), dropExact p (p ++ rest) = some rest := by
  intro p
  induction p with
  | nil => intro rest; rfl
  | cons c ps ih =>
    intro rest
    simp [dropExact, ih]

end PgClient

namespace PgClient

/-
`sepHead s` holds when the text following a placeholder starts with a
separator: end of input or a character that is neither a word character nor a
dollar sign (so later substitutions cannot create or destroy a `\b` boundary
there).
-/
def sepHead : List Char → Bool
  | [] => true
  | c :: _ => !isWordChar c && !(c == '$')

lemma allword_mismatch :
    ∀ (d1 : List Char), (∀ c ∈ d1, isWordChar c = true) →
      ∀ (d2 : List Char), (∀ c ∈ d2, isWordChar c = true) → d1 ≠ d2 →
      ∀ t, boundaryOk t = true →
        dropExact d1 (d2 ++ t) = none ∨
          ∃ d r, dropExact d1 (d2 ++ t) = some (d :: r) ∧ isWordChar d = true := by
  intro d1
  induction d1 with
  | nil =>
    intro _ d2 h2 hne t _
    cases d2 with
    | nil => exact absurd rfl hne
    | cons c2 r2 =>
      right
      exact ⟨c2, r2 ++ t, rfl, h2 c2 (List.mem_cons_self ..)⟩
  | cons c1 r1 ih =>
    intro h1 d2 h2 hne t hb
    cases d2 with
    | nil =>
      left
      cases t with
      | nil => rfl
      | cons d r =>
        have hd : isWordChar d = false := by
          simp only [boundaryOk, Bool.not_eq_true'] at hb
          exact hb
        simp only [List.nil_append, dropExact]
        rw [if_neg]
        intro he
        rw [he] at hd
        rw [h1 c1 (List.mem_cons_self ..)] at hd
        exact Bool.noConfusion hd
    | cons c2 r2 =>
      by_cases hc : c2 = c1
      · subst hc
        have hrec := ih (fun c hc => h1 c (List.mem_cons_of_mem _ hc)) r2
          (fun c hc => h2 c (List.mem_cons_of_mem _ hc))
          (fun he => hne (by rw [he])) t hb
        simpa [dropExact] using hrec
      · left
        simp only [List.cons_append, dropExact]
        rw [if_neg hc]

lemma allword_append_inj :
    ∀ (d1 : List Char), (∀ c ∈ d1, isWordChar c = true) →
      ∀ (d2 : List Char), (∀ c ∈ d2, isWordChar c = true) →
      ∀ s1 s2, sepHead s1 = true → sepHead s2 = true →
        d1 ++ s1 = d2 ++ s2 → d1 = d2 ∧ s1 = s2 := by
  intro d1
  induction d1 with
  | nil =>
    intro _ d2 h2 s1 s2 hs1 _ heq
    cases d2 with
    | nil => exact ⟨rfl, heq⟩
    | cons c2 r2 =>
      exfalso
      rw [List.nil_append] at heq
      rw [heq] at hs1
      simp only [List.cons_append, sepHead, Bool.and_eq_true, Bool.not_eq_true'] at hs1
      rw [h2 c2 (List.mem_cons_self ..)] at hs1
      exact Bool.noConfusion hs1.1
  | cons c1 r1 ih =>
    intro h1 d2 h2 s1 s2 hs1 hs2 heq
    cases d2 with
    | nil =>
      exfalso
      rw [List.nil_append] at heq
      rw [← heq] at hs2
      simp only [List.cons_append, sepHead, Bool.and_eq_true, Bool.not_eq_true'] at hs2
      rw [h1 c1 (List.mem_cons_self ..)] at hs2
      exact Bool.noConfusion hs2.1
    | cons c2 r2 =>
      simp only [List.cons_append, List.cons.injEq] at heq
      obtain ⟨hc, htail⟩ := heq
      have hrec := ih (fun c hc => h1 c (List.mem_cons_of_mem _ hc)) r2
        (fun c hc => h2 c (List.mem_cons_of_mem _ hc)) s1 s2 hs1 hs2 htail
      exact ⟨by rw [hc, hrec.1], hrec.2⟩

lemma procRepl_plain (m p q : List Char) : ∀ (r : List Char), '$' ∉ r →
    procRepl m p q r = r := by
  intro r
  induction r with
  | nil => intro _; rfl
  | cons c rest ih =>
    intro h
    have hc : c ≠ '$' := fun hce => h (by rw [hce]; exact List.mem_cons_self ..)
    have hrest : '$' ∉ rest := fun hm => h (List.mem_cons_of_mem _ hm)
    cases rest with
    | nil =>
      simp [procRepl]
    | cons c2 r2 =>
      simp only [procRepl, if_neg hc]
      rw [ih hrest]

lemma replGo_prefix (digits repl : List Char) (u : List Char) :
    ∀ (p : List Char), '$' ∉ p → ∀ (rest : List Char),
      (∀ fuel, rest.length ≤ fuel → ∀ revPre, replGo digits repl fuel revPre rest = u) →
      ∀ fuel, (p ++ rest).length ≤ fuel → ∀ revPre,
        replGo digits repl fuel revPre (p ++ rest) = p ++ u := by
  intro p
  induction p with
  | nil =>
    intro _ rest hrest fuel hlen revPre
    rw [List.nil_append, hrest fuel (by simpa using hlen) revPre, List.nil_append]
  | cons c p' ih =>
    intro h rest hrest fuel hlen revPre
    have hc : c ≠ '$' := fun hce => h (by rw [hce]; exact List.mem_cons_self ..)
    have hp' : '$' ∉ p' := fun hm => h (List.mem_cons_of_mem _ hm)
    match fuel, hlen with
    | f + 1, hlen =>
      simp only [List.cons_append, replGo, if_neg hc, List.append_eq]
      rw [ih hp' rest hrest f (by simp at hlen ⊢; omega) (c :: revPre)]

end PgClient

namespace PgClient

def containsPlaceholder (i : Nat) : List Char → Bool
  | [] => false
  | c :: rest =>
    (c == '$' && (match dropExact (digitsOf i) rest with
                  | some r => boundaryOk r
                  | none => false)) || containsPlaceholder i rest

lemma no_dollar_no_placeholder : ∀ (l : List Char), '$' ∉ l → ∀ i : Nat,
    containsPlaceholder i l = false := by
  intro l
  induction l with
  | nil => intro _ i; rfl
  | cons c rest ih =>
    intro h i
    have hc : c ≠ '$' := fun hce => h (by rw [hce]; exact List.mem_cons_self ..)
    have hcb : (c == '$') = false := by simpa using hc
    simp only [containsPlaceholder, hcb, Bool.false_and, Bool.false_or]
    exact ih (fun hm => h (List.mem_cons_of_mem _ hm)) i

/-
Specification-side substitution relation for C10 (amended).  `SubstRel n lit
sql out` holds when `sql` decomposes into literal non-dollar characters and
placeholders `$j` (1 ≤ j ≤ n, rendered by `digitsOf`, each followed by a
separator in the sense of `sepHead`), and `out` is `sql` with each
placeholder replaced by `lit j`.  `PartRel lo n lit` is the partial variant in
which placeholders with index ≤ lo are still in place, matching the
reconciler's state after the descending loop has processed indices down to
lo + 1.
-/
inductive SubstRel (n : Nat) (lit : Nat → List Char) : List Char → List Char → Prop where
  | nil : SubstRel n lit [] []
  | ch (c : Char) (hc : c ≠ '$') (s t : List Char) :
      SubstRel n lit s t → SubstRel n lit (c :: s) (c :: t)
  | ph (j : Nat) (hj1 : 1 ≤ j) (hjn : j ≤ n) (s t : List Char) (hb : sepHead s = true) :
      SubstRel n lit s t → SubstRel n lit ('$' :: (digitsOf j ++ s)) (lit j ++ t)

inductive PartRel (lo n : Nat) (lit : Nat → List Char) : List Char → List Char → Prop where
  | nil : PartRel lo n lit [] []
  | ch (c : Char) (hc : c ≠ '$') (s t : List Char) :
      PartRel lo n lit s t → PartRel lo n lit (c :: s) (c :: t)
  | keep (j : Nat) (hj1 : 1 ≤ j) (hjlo : j ≤ lo) (s t : List Char) (hb : sepHead s = true) :
      PartRel lo n lit s t →
      PartRel lo n lit ('$' :: (digitsOf j ++ s)) ('$' :: (digitsOf j ++ t))
  | subst (j : Nat) (hjlo : lo < j) (hjn : j ≤ n) (s t : List Char) (hb : sepHead s = true) :
      PartRel lo n lit s t → PartRel lo n lit ('$' :: (digitsOf j ++ s)) (lit j ++ t)

lemma partRel_boundary {lo n : Nat} {lit : Nat → List Char} {s t : List Char}
    (h : PartRel lo n lit s t) (hs : sepHead s = true) : boundaryOk t = true := by
  cases h with
  | nil => rfl
  | ch c hc s₀ t₀ _ =>
    simp only [sepHead, Bool.and_eq_true, Bool.not_eq_true'] at hs
    simp [boundaryOk, hs.1]
  | keep j hj1 hjlo s₀ t₀ hb _ =>
    exfalso
    simp [sepHead] at hs
  | subst j hjlo hjn s₀ t₀ hb _ =>
    exfalso
    simp [sepHead] at hs

lemma substRel_to_partRel {n : Nat} {lit : Nat → List Char} {s u : List Char}
    (h : SubstRel n lit s u) : PartRel n n lit s s := by
  induction h with
  | nil => exact PartRel.nil
  | ch c hc s₀ t₀ _ ih => exact PartRel.ch c hc s₀ s₀ ih
  | ph j hj1 hjn s₀ t₀ hb _ ih => exact PartRel.keep j hj1 hjn s₀ s₀ hb ih

lemma substRel_no_dollar {n : Nat} {lit : Nat → List Char} {s u : List Char}
    (h : SubstRel n lit s u) (hlit : ∀ j, 1 ≤ j → j ≤ n → '$' ∉ lit j) : '$' ∉ u := by
  induction h with
  | nil => exact List.not_mem_nil _
  | ch c hc s₀ t₀ _ ih =>
    intro hm
    rcases List.mem_cons.mp hm with he | hm'
    · exact hc he.symm
    · exact ih hm'
  | ph j hj1 hjn s₀ t₀ hb _ ih =>
    intro hm
    rcases List.mem_append.mp hm with hm' | hm'
    · exact hlit j hj1 hjn hm'
    · exact ih hm'

lemma substRel_prefix {n : Nat} {lit : Nat → List Char} :
    ∀ (p : List Char), '$' ∉ p → ∀ {s t : List Char}, SubstRel n lit s t →
      SubstRel n lit (p ++ s) (p ++ t) := by
  intro p
  induction p with
  | nil =>
    intro _ s t h
    exact h
  | cons c p' ih =>
    intro h s t hst
    have hc : c ≠ '$' := fun hce => h (by rw [hce]; exact List.mem_cons_self ..)
    exact SubstRel.ch c hc _ _ (ih (fun hm => h (List.mem_cons_of_mem _ hm)) hst)

end PgClient

namespace PgClient

lemma substRel_inv_dollar {n : Nat} {lit : Nat → List Char} :
    ∀ {s out : List Char}, SubstRel n lit s out → ∀ {rest : List Char}, s = '$' :: rest →
      ∃ j' s' t', rest = digitsOf j' ++ s' ∧ 1 ≤ j' ∧ j' ≤ n ∧ sepHead s' = true ∧
        out = lit j' ++ t' ∧ SubstRel n lit s' t' := by
  intro s out h
  cases h with
  | nil =>
    intro rest he
    exact absurd he (by simp)
  | ch c hc s₀ t₀ hrec =>
    intro rest he
    injection he with h1 h2
    exact absurd h1 hc
  | ph j hj1 hjn s₀ t₀ hb hrec =>
    intro rest he
    injection he with h1 h2
    exact ⟨j, s₀, t₀, h2.symm, hj1, hjn, hb, rfl, hrec⟩

lemma partRel_zero_eq {n : Nat} {lit : Nat → List Char} :
    ∀ {s u : List Char}, PartRel 0 n lit s u → ∀ {out : List Char},
      SubstRel n lit s out → u = out := by
  intro s u h
  induction h with
  | nil =>
    intro out hout
    cases hout
    rfl
  | ch c hc s₀ t₀ hrec ih =>
    intro out hout
    cases hout with
    | ch c' hc' s' t' hrec' => exact congrArg (c :: ·) (ih hrec')
    | ph j hj1 hjn s' t' hb' hrec' => exact absurd rfl hc
  | keep j hj1 hjlo s₀ t₀ hb hrec ih =>
    exact absurd hjlo (by omega)
  | subst j hjlo hjn s₀ t₀ hb hrec ih =>
    intro out hout
    obtain ⟨j', s', t', heq, hj1', hjn', hb', hout_eq, hrec'⟩ := substRel_inv_dollar hout rfl
    have hinj := allword_append_inj (digitsOf j) (digitsOf_all_word j)
      (digitsOf j') (digitsOf_all_word j') s₀ s' hb hb' heq
    have hj : j = j' := digitsOf_inj _ _ hinj.1
    subst hj
    rw [hout_eq]
    rw [← hinj.2] at hrec'
    exact congrArg (fun l => lit j ++ l) (ih hrec')

end PgClient

namespace PgClient

lemma partRel_replace (n : Nat) (lit : Nat → List Char)
    (hlit : ∀ j, 1 ≤ j → j ≤ n → '$' ∉ lit j) (i : Nat) (h1 : 1 ≤ i) (hin : i ≤ n) :
    ∀ s t, PartRel i n lit s t →
      ∃ u, PartRel (i - 1) n lit s u ∧
        ∀ fuel, t.length ≤ fuel → ∀ revPre,
          replGo (digitsOf i) (lit i) fuel revPre t = u := by
  intro s t h
  induction h with
  | nil =>
    refine ⟨[], PartRel.nil, ?_⟩
    intro fuel _ revPre
    cases fuel <;> rfl
  | ch c hc s₀ t₀ hrec ih =>
    obtain ⟨u, hu, hrepl⟩ := ih
    refine ⟨c :: u, PartRel.ch c hc s₀ u hu, ?_⟩
    intro fuel hlen revPre
    cases fuel with
    | zero => simp at hlen
    | succ f =>
      simp only [replGo, if_neg hc]
      rw [hrepl f (by simp at hlen; omega) (c :: revPre)]
  | keep j hj1 hjlo s₀ t₀ hb hrec ih =>
    obtain ⟨u, hu, hrepl⟩ := ih
    by_cases hji : j = i
    · subst hji
      refine ⟨lit j ++ u, PartRel.subst j (by omega) (by omega) s₀ u hb hu, ?_⟩
      intro fuel hlen revPre
      cases fuel with
      | zero => simp at hlen
      | succ f =>
        have hbd : boundaryOk t₀ = true := partRel_boundary hrec hb
        simp only [replGo]
        rw [if_pos trivial, dropExact_append]
        simp only [hbd, if_true]
        rw [procRepl_plain ('$' :: digitsOf j) revPre.reverse t₀ (lit j) (hlit j hj1 hin)]
        rw [hrepl f (by simp at hlen ⊢; omega) (('$' :: digitsOf j).reverse ++ revPre)]
    · refine ⟨'$' :: (digitsOf j ++ u), PartRel.keep j hj1 (by omega) s₀ u hb hu, ?_⟩
      intro fuel hlen revPre
      cases fuel with
      | zero => simp at hlen
      | succ f =>
        have hbd : boundaryOk t₀ = true := partRel_boundary hrec hb
        have hdne : digitsOf i ≠ digitsOf j := fun he => hji (digitsOf_inj j i he.symm)
        have hcont : replGo (digitsOf i) (lit i) f ('$' :: revPre) (digitsOf j ++ t₀) =
            digitsOf j ++ u :=
          replGo_prefix (digitsOf i) (lit i) u (digitsOf j) (dollar_not_digitsOf j) t₀ hrepl
            f (by simp at hlen ⊢; omega) ('$' :: revPre)
        rcases allword_mismatch (digitsOf i) (digitsOf_all_word i) (digitsOf j)
          (digitsOf_all_word j) hdne t₀ hbd with hnone | ⟨d, r, hsome, hw⟩
        · simp only [replGo]
          rw [if_pos trivial, hnone, hcont]
        · have hbdf : boundaryOk (d :: r) = false := by simp [boundaryOk, hw]
          simp only [replGo]
          rw [if_pos trivial, hsome]
          simp only [hbdf, Bool.false_eq_true, if_false]
          rw [hcont]
  | subst j hjlo hjn s₀ t₀ hb hrec ih =>
    obtain ⟨u, hu, hrepl⟩ := ih
    refine ⟨lit j ++ u, PartRel.subst j (by omega) hjn s₀ u hb hu, ?_⟩
    intro fuel hlen revPre
    exact replGo_prefix (digitsOf i) (lit i) u (lit j) (hlit j (by omega) hjn) t₀ hrepl
      fuel hlen revPre

end PgClient

namespace PgClient

def litOf (params : List JsValue) (j : Nat) : List Char :=
  (formatValueForSql (params.getD (j - 1) JsValue.undefined)).data

lemma fmtLoop_partRel (n : Nat) (params : List JsValue)
    (hlit : ∀ j, 1 ≤ j → j ≤ n → '$' ∉ litOf params j) :
    ∀ i, i ≤ n → ∀ s cur, PartRel i n (litOf params) s cur →
      ∃ u, PartRel 0 n (litOf params) s u ∧ fmtLoop params i cur = u := by
  intro i
  induction i with
  | zero =>
    intro _ s cur h
    exact ⟨cur, h, rfl⟩
  | succ i ih =>
    intro hin s cur h
    obtain ⟨u1, hu1, hrepl⟩ :=
      partRel_replace n (litOf params) hlit (i + 1) (by omega) hin s cur h
    have hstep : fmtLoop params (i + 1) cur = fmtLoop params i u1 := by
      simp only [fmtLoop]
      rw [show jsReplaceAll (digitsOf (i + 1))
            (formatValueForSql (params.getD i JsValue.undefined)).data cur =
          replGo (digitsOf (i + 1)) (litOf params (i + 1)) cur.length [] cur from rfl]
      rw [hrepl cur.length (le_refl _) []]
    obtain ⟨u, hu, hloop⟩ := ih (by omega) s u1 hu1
    exact ⟨u, hu, by rw [hstep, hloop]⟩

/--
Counterexample to C10 as stated: with `sql = "SELECT $1"` and the single
parameter string "$&", whose display literal `'$&'` contains no `$k`
placeholder pattern for any k, the result is "SELECT '$1'": the JavaScript
replacement-string escape `$&` re-inserts the matched text, so the audit
string still contains the placeholder `$1` (at a word boundary) even though
1 ≤ n.
-/
theorem formatSql_cex_replacement_escape :
    formatSqlWithParams "SELECT $1" [JsValue.str "$&"] = "SELECT '$1'" ∧
    containsPlaceholder 1 "SELECT '$1'".data = true ∧
    (∀ k : Nat, containsPlaceholder k (formatValueForSql (JsValue.str "$&")).data = false) := by
  refine ⟨by decide, by decide, ?_⟩
  intro k
  have hne : dropExact (digitsOf k) ('&' :: '\'' :: []) = none := by
    cases hd : digitsOf k with
    | nil => exact absurd hd (digitsOf_ne_nil k)
    | cons d ds =>
      have hw : isWordChar d = true :=
        digitsOf_all_word k d (by rw [hd]; exact List.mem_cons_self ..)
      simp only [dropExact]
      rw [if_neg]
      intro he
      rw [← he] at hw
      exact absurd hw (by decide)
  have h1 : (('\'' : Char) == '$') = false := by decide
  have h2 : (('&' : Char) == '$') = false := by decide
  have h3 : (('$' : Char) == '$') = true := by decide
  show containsPlaceholder k ('\'' :: '$' :: '&' :: '\'' :: []) = false
  simp only [containsPlaceholder, h1, h2, h3, hne, Bool.false_and, Bool.true_and,
    Bool.false_or, Bool.or_false]

/--
Claim C10 (amended): if every dollar sign in the SQL text begins a
placeholder `$j` with 1 ≤ j ≤ n = params.length whose digits are the decimal
rendering of j and which is followed by the end of the text or by a character
that is neither a word character nor a dollar sign, and no formatted display
literal contains a dollar sign, then `formatSqlWithParams` returns exactly
the text with every placeholder `$j` replaced by the display literal of
params[j-1] (the descending loop never corrupts a multi-digit placeholder),
and the result contains no dollar sign and hence no remaining `$i`
placeholder for any i.
-/
theorem formatSql_subst_amended (params : List JsValue) (sql out : List Char)
    (hrel : SubstRel params.length (litOf params) sql out)
    (hlit : ∀ j, 1 ≤ j → j ≤ params.length → '$' ∉ litOf params j) :
    (formatSqlWithParams (String.mk sql) params).data = out ∧
    '$' ∉ out ∧
    ∀ i : Nat, containsPlaceholder i out = false := by
  have hstart : PartRel params.length params.length (litOf params) sql sql :=
    substRel_to_partRel hrel
  obtain ⟨u, hu, hloop⟩ :=
    fmtLoop_partRel params.length params hlit params.length (le_refl _) sql sql hstart
  have heval : (formatSqlWithParams (String.mk sql) params).data = u := hloop
  have heq : u = out := partRel_zero_eq hu hrel
  have hnd : '$' ∉ out := substRel_no_dollar hrel hlit
  exact ⟨heval.trans heq, hnd, no_dollar_no_placeholder out hnd⟩

end PgClient

namespace PgClient

/--
Witness for C10 (amended) at a concrete input: formatting "SELECT $1" with
the single numeric parameter 5 yields "SELECT 5", which contains no dollar
sign.
-/
theorem formatSql_subst_amended_witness :
    (formatSqlWithParams (String.mk "SELECT $1".data) [JsValue.num 5]).data =
      "SELECT 5".data ∧
    '$' ∉ "SELECT 5".data := by
  have hph : SubstRel 1 (litOf [JsValue.num 5]) ('$' :: (digitsOf 1 ++ []))
      (litOf [JsValue.num 5] 1 ++ []) :=
    SubstRel.ph 1 (by omega) (by omega) [] [] (by decide) SubstRel.nil
  have hrel0 := substRel_prefix "SELECT ".data (by decide) hph
  have hrel : SubstRel ([JsValue.num 5] : List JsValue).length (litOf [JsValue.num 5])
      "SELECT $1".data "SELECT 5".data := by
    have e1 : "SELECT ".data ++ ('$' :: (digitsOf 1 ++ [])) = "SELECT $1".data := by decide
    have e2 : "SELECT ".data ++ (litOf [JsValue.num 5] 1 ++ []) = "SELECT 5".data := by
      decide
    rw [← e1, ← e2]
    exact hrel0
  have hlit : ∀ j, 1 ≤ j → j ≤ ([JsValue.num 5] : List JsValue).length →
      '$' ∉ litOf [JsValue.num 5] j := by
    intro j hj1 hj2
    have hl : ([JsValue.num 5] : List JsValue).length = 1 := rfl
    rw [hl] at hj2
    have hj : j = 1 := by omega
    rw [hj]
    decide
  have h := formatSql_subst_amended [JsValue.num 5] "SELECT $1".data "SELECT 5".data hrel hlit
  exact ⟨h.1, h.2.1⟩

end PgClient

namespace PgClient

/-
## Query executor (src/unnamed/part_007)

`QueryExecutor.execute` is modelled as a state transformer on the executor's
mutable state (query history and active query).  The awaited externals of one
call — pool.connect, the pg_backend_pid query, and the main query — are the
fields of `ExecEnv`, each an `Except` to model a rejected promise;
`cancelFlagAtCatch` is the value of `this.activeQuery?.cancelled` observed in
the catch block, which `cancelCurrentQuery` may have set concurrently after
this call installed its ActiveQuery.  A thrown JS error is the `Except.error`
of the call's result; `released` records whether the finally block called
`client.release()`.
-/

structure HistoryItem where
  id : String
  sql : String
  connectionId : String
  timestamp : Int
  duration : Int
  rowCount : Int
  error : Option String
deriving DecidableEq

structure ActiveQuery where
  pid : Int
  connectionId : String
  cancelled : Bool
deriving DecidableEq

structure ExecState where
  queryHistory : List HistoryItem
  activeQuery : Option ActiveQuery
deriving DecidableEq

structure PgFieldInfo where
  name : String
  dataTypeID : Int
deriving DecidableEq

structure PgOk where
  fields : Option (List PgFieldInfo)
  rows : Option (List (List (String × JsValue)))
  rowCount : Option Int
deriving DecidableEq

structure QueryResult where
  columns : List ColumnInfo
  rows : List (List (String × JsValue))
  rowCount : Int
  duration : Int
  error : Option String
deriving DecidableEq

structure ExecEnv where
  connId : String
  connectResult : Except String Unit
  pidResult : Except String Int
  mainResult : Except String PgOk
  cancelFlagAtCatch : Bool
  genId : String
  duration : Int
  timestamp : Int

structure ExecOutcome where
  result : Except String QueryResult
  state : ExecState
  released : Bool

def getDataTypeName (oid : Int) : String :=
  if oid = 16 then "boolean"
  else if oid = 20 then "bigint"
  else if oid = 21 then "smallint"
  else if oid = 23 then "integer"
  else if oid = 25 then "text"
  else if oid = 700 then "real"
  else if oid = 701 then "double precision"
  else if oid = 1043 then "varchar"
  else if oid = 1082 then "date"
  else if oid = 1083 then "time"
  else if oid = 1114 then "timestamp"
  else if oid = 1184 then "timestamptz"
  else if oid = 2950 then "uuid"
  else if oid = 3802 then "jsonb"
  else if oid = 114 then "json"
  else "unknown"

def containsSub (pat : List Char) : List Char → Bool
  | [] => pat.isEmpty
  | c :: rest => pat.isPrefixOf (c :: rest) || containsSub pat rest

def strIncludes (s pat : String) : Bool :=
  containsSub pat.data s.data

def addToHistory (item : HistoryItem) (h : List HistoryItem) : List HistoryItem :=
  let h2 := item :: h
  if h2.length > 100 then h2.dropLast else h2

def wasCancelledOf (flag : Bool) (msg : String) : Bool :=
  flag || strIncludes msg "canceling statement due to user request" ||
    strIncludes msg "57014"

def executeM (env : ExecEnv) (conn : Bool) (sql : String) (st : ExecState) : ExecOutcome :=
  if conn = false then
    ⟨Except.error "No active database connection", st, false⟩
  else
    let entryFlag :=
      match st.activeQuery with
      | some aq => aq.cancelled
      | none => false
    match env.connectResult with
    | Except.error msg =>
      let wasCancelled := wasCancelledOf entryFlag msg
      let res : QueryResult :=
        ⟨[], [], 0, env.duration,
          some (if wasCancelled then "Query cancelled by user" else msg)⟩
      let hist :=
        if wasCancelled then st.queryHistory
        else addToHistory ⟨env.genId, sql, env.connId, env.timestamp, env.duration, 0, some msg⟩
          st.queryHistory
      if wasCancelled then ⟨Except.ok res, ⟨hist, none⟩, false⟩
      else ⟨Except.error msg, ⟨hist, none⟩, false⟩
    | Except.ok _ =>
      match env.pidResult with
      | Except.error msg =>
        let wasCancelled := wasCancelledOf entryFlag msg
        let res : QueryResult :=
          ⟨[], [], 0, env.duration,
            some (if wasCancelled then "Query cancelled by user" else msg)⟩
        let hist :=
          if wasCancelled then st.queryHistory
          else addToHistory
            ⟨env.genId, sql, env.connId, env.timestamp, env.duration, 0, some msg⟩
            st.queryHistory
        if wasCancelled then ⟨Except.ok res, ⟨hist, none⟩, true⟩
        else ⟨Except.error msg, ⟨hist, none⟩, true⟩
      | Except.ok _ =>
        match env.mainResult with
        | Except.ok pg =>
          let columns :=
            (pg.fields.map (List.map fun f =>
              (⟨f.name, getDataTypeName f.dataTypeID, f.dataTypeID⟩ : ColumnInfo))).getD []
          let rc := pg.rowCount.getD 0
          let res : QueryResult := ⟨columns, pg.rows.getD [], rc, env.duration, none⟩
          let hist := addToHistory
            ⟨env.genId, sql, env.connId, env.timestamp, env.duration, rc, none⟩
            st.queryHistory
          ⟨Except.ok res, ⟨hist, none⟩, true⟩
        | Except.error msg =>
          let wasCancelled := wasCancelledOf env.cancelFlagAtCatch msg
          let res : QueryResult :=
            ⟨[], [], 0, env.duration,
              some (if wasCancelled then "Query cancelled by user" else msg)⟩
          let hist :=
            if wasCancelled then st.queryHistory
            else addToHistory
              ⟨env.genId, sql, env.connId, env.timestamp, env.duration, 0, some msg⟩
              st.queryHistory
          if wasCancelled then ⟨Except.ok res, ⟨hist, none⟩, true⟩
          else ⟨Except.error msg, ⟨hist, none⟩, true⟩

def cancelCurrentQuery (cancelOk : Bool) (st : ExecState) : Bool × ExecState :=
  match st.activeQuery with
  | none => (false, st)
  | some aq =>
    if aq.cancelled then (false, st)
    else (cancelOk, ⟨st.queryHistory, some { aq with cancelled := true }⟩)

def cancelEnv (connId : String) (pid : Int) (msg : String) (flag : Bool) (genId : String)
    (dur ts : Int) : ExecEnv :=
  ⟨connId, Except.ok (), Except.ok pid, Except.error msg, flag, genId, dur, ts⟩

def okEnv (connId : String) (pid : Int) (pg : PgOk) (flag : Bool) (genId : String)
    (dur ts : Int) : ExecEnv :=
  ⟨connId, Except.ok (), Except.ok pid, Except.ok pg, flag, genId, dur, ts⟩

end PgClient

namespace PgClient

/--
Claim C5: when the main query of an execution rejects and the ActiveQuery was
marked cancelled (or the driver message contains a cancellation signature —
"canceling statement due to user request" or "57014"), the call resolves (no
rethrow) with error message exactly 'Query cancelled by user' instead of the
raw driver message, the query history is unchanged, the client is released
and the ActiveQuery cleared, so any subsequent execute on the same executor
state whose externals succeed resolves with no error; and cancelCurrentQuery
marks the ActiveQuery cancelled, returning the cancel-request outcome.
-/
theorem execute_cancelled_outcome (connId : String) (pid : Int) (msg : String)
    (flag : Bool) (genId : String) (dur ts : Int) (sql : String) (st : ExecState)
    (hsig : flag = true ∨
      strIncludes msg "canceling statement due to user request" = true ∨
      strIncludes msg "57014" = true) :
    (executeM (cancelEnv connId pid msg flag genId dur ts) true sql st).result =
      Except.ok ⟨[], [], 0, dur, some "Query cancelled by user"⟩ ∧
    (executeM (cancelEnv connId pid msg flag genId dur ts) true sql st).state.queryHistory =
      st.queryHistory ∧
    (executeM (cancelEnv connId pid msg flag genId dur ts) true sql st).released = true ∧
    (executeM (cancelEnv connId pid msg flag genId dur ts) true sql st).state.activeQuery =
      none ∧
    (∀ (connId2 genId2 sql2 : String) (pid2 dur2 ts2 : Int) (flag2 : Bool) (pg : PgOk),
      ∃ qr : QueryResult,
        (executeM (okEnv connId2 pid2 pg flag2 genId2 dur2 ts2) true sql2
            (executeM (cancelEnv connId pid msg flag genId dur ts) true sql st).state).result =
          Except.ok qr ∧ qr.error = none) ∧
    (∀ (cancelOk : Bool) (aq : ActiveQuery) (h : List HistoryItem), aq.cancelled = false →
      (cancelCurrentQuery cancelOk ⟨h, some aq⟩).2.activeQuery =
        some ⟨aq.pid, aq.connectionId, true⟩ ∧
      (cancelCurrentQuery cancelOk ⟨h, some aq⟩).1 = cancelOk) := by
  have hwc : wasCancelledOf flag msg = true := by
    unfold wasCancelledOf
    rcases hsig with h | h | h <;> simp [h]
  have ho : executeM (cancelEnv connId pid msg flag genId dur ts) true sql st =
      ⟨Except.ok ⟨[], [], 0, dur, some "Query cancelled by user"⟩,
        ⟨st.queryHistory, none⟩, true⟩ := by
    simp [executeM, cancelEnv, hwc]
  refine ⟨by rw [ho], by rw [ho], by rw [ho], by rw [ho], ?_, ?_⟩
  · intro connId2 genId2 sql2 pid2 dur2 ts2 flag2 pg
    refine ⟨⟨(pg.fields.map (List.map fun f =>
        (⟨f.name, getDataTypeName f.dataTypeID, f.dataTypeID⟩ : ColumnInfo))).getD [],
        pg.rows.getD [], pg.rowCount.getD 0, dur2, none⟩, ?_, rfl⟩
    rw [ho]
    rfl
  · intro cancelOk aq h haq
    simp [cancelCurrentQuery, haq]

/--
Witness for C5 at concrete inputs: a cancelled execution (flag set, driver
message "boom") resolves with the cancellation message, leaves the history
empty, releases the client and clears the active query.
-/
theorem execute_cancelled_outcome_witness :
    (executeM (cancelEnv "c1" 42 "boom" true "q1" 7 0) true "SELECT 1" ⟨[], none⟩).result =
      Except.ok ⟨[], [], 0, 7, some "Query cancelled by user"⟩ ∧
    (executeM (cancelEnv "c1" 42 "boom" true "q1" 7 0) true "SELECT 1"
      ⟨[], none⟩).state.queryHistory = [] ∧
    (executeM (cancelEnv "c1" 42 "boom" true "q1" 7 0) true "SELECT 1" ⟨[], none⟩).released =
      true ∧
    (executeM (cancelEnv "c1" 42 "boom" true "q1" 7 0) true "SELECT 1"
      ⟨[], none⟩).state.activeQuery = none :=
  ⟨(execute_cancelled_outcome "c1" 42 "boom" true "q1" 7 0 "SELECT 1" ⟨[], none⟩
      (Or.inl rfl)).1,
   (execute_cancelled_outcome "c1" 42 "boom" true "q1" 7 0 "SELECT 1" ⟨[], none⟩
      (Or.inl rfl)).2.1,
   (execute_cancelled_outcome "c1" 42 "boom" true "q1" 7 0 "SELECT 1" ⟨[], none⟩
      (Or.inl rfl)).2.2.1,
   (execute_cancelled_outcome "c1" 42 "boom" true "q1" 7 0 "SELECT 1" ⟨[], none⟩
      (Or.inl rfl)).2.2.2.1⟩

end PgClient
